import Mathlib

/-!
Verification of the walle-style channel injector
(`src/core/walle_python_impl.py`, class `WallePythonImpl`).

The archive file is modelled as a `List Nat` of bytes.  File reads
(`f.seek`/`f.read` followed by `struct.unpack`) are modelled by `Option`
valued accessors that fail exactly when the Python code would raise
(`struct.error` on a short read, `OSError` on a negative seek).  The
fallible pipeline of each public operation is an `Except` computation,
and the public operations themselves fold every error into the
`False` / `None` results produced by the `try/except` blocks in the
source, exactly as `inject_channel` and `get_channel` do.
-/

set_option maxHeartbeats 1000000

namespace Walle

/-- Little-endian value of a byte list, as `struct.unpack` computes it. -/
def leNum : List Nat → Nat
  | [] => 0
  | b :: bs => b + 256 * leNum bs

/-- Little-endian encoding of `n` on `w` bytes, as `struct.pack` lays it out. -/
def leBytes : Nat → Nat → List Nat
  | 0, _ => []
  | w + 1, n => n % 256 :: leBytes w (n / 256)

/-- The sublist of `f` starting at offset `off` with (at most) `n` elements.
This is Python slice/read semantics: it clamps at the end of the list. -/
def extract (f : List Nat) (off n : Nat) : List Nat :=
  (f.drop off).take n

/-- Read of `n` bytes at offset `off` followed by a fixed-size unpack:
succeeds exactly when the full `n` bytes exist (`struct.unpack` raises
`struct.error` on a short buffer). -/
def readBytes? (f : List Nat) (off n : Nat) : Option (List Nat) :=
  if off + n ≤ f.length then some (extract f off n) else none

/-- Model of `struct.unpack('<Q', bs[i:i+8])`. -/
def sliceU64? (bs : List Nat) (i : Nat) : Option Nat :=
  if i + 8 ≤ bs.length then some (leNum (extract bs i 8)) else none

/-- Model of `struct.unpack('<I', bs[i:i+4])`. -/
def sliceU32? (bs : List Nat) (i : Nat) : Option Nat :=
  if i + 4 ≤ bs.length then some (leNum (extract bs i 4)) else none

/-- Model of a 4-byte file read at `off` plus `struct.unpack('<I', ...)`. -/
def readU32? (f : List Nat) (off : Nat) : Option Nat :=
  if off + 4 ≤ f.length then some (leNum (extract f off 4)) else none

/-- Model of a 2-byte file read at `off` plus `struct.unpack('<H', ...)`. -/
def readU16? (f : List Nat) (off : Nat) : Option Nat :=
  if off + 2 ≤ f.length then some (leNum (extract f off 2)) else none

/-- Model of `struct.pack('<Q', n)`: fails (raises) unless `n < 2^64`. -/
def u64le? (n : Nat) : Option (List Nat) :=
  if n < 2 ^ 64 then some (leBytes 8 n) else none

/-- Model of `struct.pack('<I', n)`: fails (raises) unless `n < 2^32`. -/
def u32le? (n : Nat) : Option (List Nat) :=
  if n < 2 ^ 32 then some (leBytes 4 n) else none

/-- In-place overwrite of `bs` into `f` at position `p` (the `f.seek(p)`
then `f.write(bs)` pattern; in this development it is only applied with
`p + bs.length ≤ f.length`). -/
def writeBytes (f : List Nat) (p : Nat) (bs : List Nat) : List Nat :=
  f.take p ++ bs ++ f.drop (p + bs.length)

/-- WALLE_CHANNEL_BLOCK_ID: id of the injected channel entry. -/
def walleChannelId : Nat := 0x71777777

/-- APK_SIG_BLOCK_MAGIC_LO. -/
def apkSigBlockMagicLo : Nat := 0x20676953204b5041

/-- APK_SIG_BLOCK_MAGIC_HI. -/
def apkSigBlockMagicHi : Nat := 0x3234206b636f6c42

/-- APK_SIGNATURE_SCHEME_V2_BLOCK_ID: the Reserved Signature Entry id. -/
def apkSigV2Id : Nat := 0x7109871a

/-- VERITY_PADDING_BLOCK_ID: the optional padding entry id. -/
def verityPaddingId : Nat := 0x42726577

/-- APK_SIG_BLOCK_MIN_SIZE. -/
def apkSigBlockMinSize : Nat := 32

/-- The EOCD record signature 0x06054b50. -/
def eocdSig : Nat := 0x06054b50

/-- Error kinds, one per raise site of the source (the source raises a
single `SignatureNotFoundException` for most of them and `struct.error`
or `OSError` for the rest; the kinds are kept separate here so theorems
can tell the sites apart). -/
inductive WErr where
  | eocdNotFound
  | shortRead
  | blockTooSmall
  | badMagic
  | offsetOutOfRange
  | sizeMismatch
  | corrupt
  | sigMissing
  | encodeError
  | packError
  | patchSeekError
  | patchPackError
deriving DecidableEq, Repr

deriving instance DecidableEq for Except

/-- The candidate test of `_get_comment_length` at comment-length
candidate `k`: the 4 bytes at `file size - 22 - k` are the EOCD
signature, and the u16 comment-length field of that record equals `k`. -/
def eocdCheck (f : List Nat) (k : Nat) : Bool :=
  (readU32? f (f.length - 22 - k) == some eocdSig) &&
  (readU16? f (f.length - 22 - k + 20) == some k)

/-- `_get_comment_length`: scan candidates from 0 up to
`min (file size - 22) 65535` and return the first self-consistent one;
`none` models the `SignatureNotFoundException` raise (also when the file
is shorter than 22 bytes, where the Python range is empty). -/
def getCommentLength (f : List Nat) : Option Nat :=
  if f.length < 22 then none
  else (List.range (min (f.length - 22) 65535 + 1)).find? (eocdCheck f)

/-- `_find_central_dir_start_offset`: read the u32 central-directory
offset 6 bytes before the EOCD record ends (a negative seek raises). -/
def findCentralDirOffset (f : List Nat) (c : Nat) : Option Nat :=
  if f.length < c + 6 then none
  else readU32? f (f.length - c - 6)

/-- `_find_apk_signing_block`: locate and return the signing container
and its absolute offset, given the central-directory offset `cd`. -/
def findApkSigningBlock (f : List Nat) (cd : Nat) :
    Except WErr (List Nat × Nat) :=
  if cd < apkSigBlockMinSize then .error .blockTooSmall
  else
    let footer := extract f (cd - 24) 24
    match sliceU64? footer 8, sliceU64? footer 16 with
    | some lo, some hi =>
      if lo ≠ apkSigBlockMagicLo ∨ hi ≠ apkSigBlockMagicHi then .error .badMagic
      else
        match sliceU64? footer 0 with
        | some fsize =>
          if cd < fsize + 8 then .error .offsetOutOfRange
          else
            let off := cd - (fsize + 8)
            let block := extract f off (fsize + 8)
            match sliceU64? block 0 with
            | some hsize =>
              if hsize ≠ fsize then .error .sizeMismatch
              else .ok (block, off)
            | none => .error .shortRead
        | none => .error .shortRead
    | _, _ => .error .shortRead

/-- Association-list lookup, modelling `dict` key access. -/
def lookupA (m : List (Nat × List Nat)) (k : Nat) : Option (List Nat) :=
  match m with
  | [] => none
  | (i, v) :: rest => if i = k then some v else lookupA rest k

/-- Membership test, modelling `k in dict`. -/
def hasKey (m : List (Nat × List Nat)) (k : Nat) : Bool :=
  (lookupA m k).isSome

/-- Replace every pair keyed `k` with `(k, v)`, keeping positions. -/
def updAll : List (Nat × List Nat) → Nat → List Nat → List (Nat × List Nat)
  | [], _, _ => []
  | (i, w) :: rest, k, v =>
    (if i = k then (k, v) else (i, w)) :: updAll rest k v

/-- `dict[k] = v`: replace in place if the key exists (Python dicts keep
the original insertion position on update), else append. -/
def upd (m : List (Nat × List Nat)) (k : Nat) (v : List Nat) :
    List (Nat × List Nat) :=
  if hasKey m k then updAll m k v
  else m ++ [(k, v)]

/-- `del dict[k]`. -/
def eraseKey (m : List (Nat × List Nat)) (k : Nat) : List (Nat × List Nat) :=
  m.filter (fun p => p.1 ≠ k)

/-- The pair-decoding loop of `_find_id_values`: starting at cursor `pos`,
read `(u64 length, u32 id, length - 4 value bytes)` records until the
cursor reaches `container length - 24`.  The value slice clamps at the
end of the container exactly as a Python slice does, and the cursor
advance `pos += 8; pos += 4; pos += entry_size - 4` nets to
`pos + 8 + entry_size` (Python integers, so no underflow even for
`entry_size < 4`, where the slice is empty).  The error cases model the
`struct.unpack` raises on a short buffer.  The loop is written with an
explicit fuel so that it evaluates by kernel reduction; the fuel is
irrelevant as long as it is large enough (see `decodePairsAux_ok`). -/
def decodePairsAux (block : List Nat) (fuel pos : Nat)
    (acc : List (Nat × List Nat)) : Except Unit (List (Nat × List Nat)) :=
  if pos < block.length - 24 then
    match fuel with
    | 0 => .error ()
    | fuel + 1 =>
      match sliceU64? block pos with
      | none => .error ()
      | some entrySize =>
        match sliceU32? block (pos + 8) with
        | none => .error ()
        | some entryId =>
          decodePairsAux block fuel (pos + 8 + entrySize)
            (upd acc entryId (extract block (pos + 12) (entrySize - 4)))
  else .ok acc

/-- `_find_id_values`: the decode loop starting at cursor 8.  The fuel
`block.length` is never exhausted, since every iteration advances the
cursor by at least 8 while it stays below the container length. -/
def findIdValues (block : List Nat) : Except Unit (List (Nat × List Nat)) :=
  decodePairsAux block block.length 8 []

/-- The pair-serialization loop of `_create_apk_signing_block`:
`pack('<Q', 4 + len v) ++ pack('<I', id) ++ v` for each entry, in dict
iteration order. -/
def packPairs : List (Nat × List Nat) → Option (List Nat)
  | [] => some []
  | (i, v) :: rest =>
    match u64le? (4 + v.length), u32le? i, packPairs rest with
    | some sz, some idb, some restb => some (sz ++ idb ++ v ++ restb)
    | _, _, _ => none

/-- `_create_apk_signing_block`. -/
def createApkSigningBlock (m : List (Nat × List Nat)) : Option (List Nat) :=
  match packPairs m with
  | none => none
  | some pairs =>
    let total := 8 + pairs.length + 24
    match u64le? (total - 8) with
    | none => none
    | some szb =>
      some (szb ++ pairs ++ szb ++
        leBytes 8 apkSigBlockMagicLo ++ leBytes 8 apkSigBlockMagicHi)

/-!
The channel payload layer.  Channels are Python `str` values, modelled
as lists of code points.  `create_channel_info` is
`json.dumps({'channel': channel}, ensure_ascii=False)` and
`parse_channel_info` is `bytes.decode('utf-8')` plus `json.loads` with
the documented lossy fallback.  `json.dumps` and `json.loads` are
stdlib collaborators; they are modelled here on exactly the object
grammar this system writes, `\x7b"channel": "<escaped string>"\x7d`:
the encoder is byte-faithful to `json.dumps` on that input, and the
decoder accepts that grammar, any other input taking the same path as
a `JSONDecodeError` (the fallback dictionary built by the source).
-/

/-- Lowercase hex digit, as `'\\u%04x' % c` prints it. -/
def hexDigitChar (n : Nat) : Nat :=
  if n < 10 then 48 + n else 87 + n

/-- Hex digit value accepted by the `\\uXXXX` escape of `json.loads`. -/
def hexVal? (c : Nat) : Option Nat :=
  if 48 ≤ c ∧ c ≤ 57 then some (c - 48)
  else if 97 ≤ c ∧ c ≤ 102 then some (c - 87)
  else if 65 ≤ c ∧ c ≤ 70 then some (c - 55)
  else none

/-- JSON string escaping of one character, as `json.dumps` with
`ensure_ascii=False` performs it: only `"`, `\\` and the control
characters below 0x20 are escaped. -/
def jsonEscapeChar (c : Nat) : List Nat :=
  if c = 34 then [92, 34]
  else if c = 92 then [92, 92]
  else if c = 8 then [92, 98]
  else if c = 9 then [92, 116]
  else if c = 10 then [92, 110]
  else if c = 12 then [92, 102]
  else if c = 13 then [92, 114]
  else if c < 32 then [92, 117, 48, 48, hexDigitChar (c / 16), hexDigitChar (c % 16)]
  else [c]

/-- The code points of the fixed JSON text `\x7b"channel": "`. -/
def jsonHead : List Nat := [123, 34, 99, 104, 97, 110, 110, 101, 108, 34, 58, 32, 34]

/-- `create_channel_info`: the code points of
`json.dumps({'channel': channel}, ensure_ascii=False)`. -/
def createChannelInfo (ch : List Nat) : List Nat :=
  jsonHead ++ (ch.map jsonEscapeChar).flatten ++ [34, 125]

/-- Value of a single-character JSON escape (`\\" \\\\ \\/ \\b \\f \\n \\r \\t`). -/
def jsonUnescape? (e : Nat) : Option Nat :=
  if e = 34 then some 34
  else if e = 92 then some 92
  else if e = 47 then some 47
  else if e = 98 then some 8
  else if e = 102 then some 12
  else if e = 110 then some 10
  else if e = 114 then some 13
  else if e = 116 then some 9
  else none

/-- JSON string-body parser: consumes characters up to and including the
closing quote, resolving escapes, and returns the decoded content and
the remaining input.  Raw control characters terminate with failure, as
in `json.loads`. -/
def parseJsonString (l : List Nat) : Option (List Nat × List Nat) :=
  match l with
  | [] => none
  | c :: rest =>
    if c = 34 then some ([], rest)
    else if c = 92 then
      match rest with
      | [] => none
      | e :: rest2 =>
        if e = 117 then
          match rest2 with
          | h1 :: h2 :: h3 :: h4 :: rest3 =>
            match hexVal? h1, hexVal? h2, hexVal? h3, hexVal? h4 with
            | some d1, some d2, some d3, some d4 =>
              (fun p => ((((d1 * 16 + d2) * 16 + d3) * 16 + d4) :: p.1, p.2)) <$>
                parseJsonString rest3
            | _, _, _, _ => none
          | _ => none
        else
          match jsonUnescape? e with
          | some u => (fun p => (u :: p.1, p.2)) <$> parseJsonString rest2
          | none => none
    else if c < 32 then none
    else (fun p => (c :: p.1, p.2)) <$> parseJsonString rest

/-- Literal matcher: strip an expected prefix. -/
def dropLit : List Nat → List Nat → Option (List Nat)
  | [], l => some l
  | _ :: _, [] => none
  | p :: ps, c :: cs => if c = p then dropLit ps cs else none

/-- Parse the channel object `\x7b"channel": "<string>"\x7d` and return the
string value (the `json.loads` + `.get('channel')` path of the reader
on the shape this system writes). -/
def jsonParseChannel (cps : List Nat) : Option (List Nat) :=
  match dropLit jsonHead cps with
  | none => none
  | some rest =>
    match parseJsonString rest with
    | some (s, [125]) => some s
    | _ => none

/-- Admissibility test of a two-byte UTF-8 tail. -/
def utf8Tail2Ok (b1 : Nat) : Bool :=
  decide (0x80 ≤ b1 ∧ b1 < 0xC0)

/-- Admissibility test of a three-byte UTF-8 sequence tail (rejecting
overlong forms under lead byte 0xE0 and surrogates under 0xED). -/
def utf8Tail3Ok (b b1 b2 : Nat) : Bool :=
  decide ((0x80 ≤ b1 ∧ b1 < 0xC0) ∧ (0x80 ≤ b2 ∧ b2 < 0xC0) ∧
    (b = 0xE0 → 0xA0 ≤ b1) ∧ (b = 0xED → b1 < 0xA0))

/-- Admissibility test of a four-byte UTF-8 sequence tail (rejecting
overlong forms under lead byte 0xF0 and values above 0x10FFFF under
0xF4). -/
def utf8Tail4Ok (b b1 b2 b3 : Nat) : Bool :=
  decide ((0x80 ≤ b1 ∧ b1 < 0xC0) ∧ (0x80 ≤ b2 ∧ b2 < 0xC0) ∧
    (0x80 ≤ b3 ∧ b3 < 0xC0) ∧ (b = 0xF0 → 0x90 ≤ b1) ∧ (b = 0xF4 → b1 < 0x90))

/-- One-step strict UTF-8 decode: the first scalar value of the byte
stream and the remaining bytes, rejecting continuation-byte errors,
overlong forms, surrogates, values above 0x10FFFF and truncated
sequences, as `bytes.decode('utf-8')` does. -/
def utf8Step (l : List Nat) : Option (Nat × List Nat) :=
  match l with
  | [] => none
  | b :: rest =>
    if b < 0x80 then some (b, rest)
    else if b < 0xC2 then none
    else if b < 0xE0 then
      match rest with
      | b1 :: r =>
        if utf8Tail2Ok b1 then some ((b - 0xC0) * 64 + (b1 - 0x80), r)
        else none
      | [] => none
    else if b < 0xF0 then
      match rest with
      | b1 :: b2 :: r =>
        if utf8Tail3Ok b b1 b2 then
          some ((b - 0xE0) * 4096 + (b1 - 0x80) * 64 + (b2 - 0x80), r)
        else none
      | _ => none
    else if b < 0xF5 then
      match rest with
      | b1 :: b2 :: b3 :: r =>
        if utf8Tail4Ok b b1 b2 b3 then
          some ((b - 0xF0) * 262144 + (b1 - 0x80) * 4096 +
            (b2 - 0x80) * 64 + (b3 - 0x80), r)
        else none
      | _ => none
    else none

/-- Fuel-indexed strict UTF-8 decode loop; one unit of fuel per decoded
character suffices since every step consumes at least one byte. -/
def utf8DecodeAux : Nat → List Nat → Option (List Nat)
  | 0, l => if l.isEmpty then some [] else none
  | fuel + 1, l =>
    match utf8Step l with
    | some (c, r) => (utf8DecodeAux fuel r).map (c :: ·)
    | none => if l.isEmpty then some [] else none

/-- Strict UTF-8 decoder, `bytes.decode('utf-8')`: `none` models the
`UnicodeDecodeError` raise. -/
def utf8Decode? (l : List Nat) : Option (List Nat) :=
  utf8DecodeAux l.length l

/-- Fuel-indexed lossy UTF-8 decode loop. -/
def utf8DecodeIgnoreAux : Nat → List Nat → List Nat
  | 0, _ => []
  | fuel + 1, l =>
    match utf8Step l with
    | some (c, r) => c :: utf8DecodeIgnoreAux fuel r
    | none =>
      match l with
      | [] => []
      | _ :: rest => utf8DecodeIgnoreAux fuel rest

/-- Lossy UTF-8 decoder, `bytes.decode('utf-8', errors='ignore')`:
bytes that do not start a decodable sequence are skipped. -/
def utf8DecodeIgnore (l : List Nat) : List Nat :=
  utf8DecodeIgnoreAux l.length l

/-- UTF-8 encoding of one code point, `str.encode('utf-8')` on one
character: fails (raises `UnicodeEncodeError`) on surrogates and on
values above 0x10FFFF. -/
def utf8EncodeChar? (c : Nat) : Option (List Nat) :=
  if c < 0x80 then some [c]
  else if c < 0x800 then some [0xC0 + c / 64, 0x80 + c % 64]
  else if c < 0x10000 then
    if 0xD800 ≤ c ∧ c < 0xE000 then none
    else some [0xE0 + c / 4096, 0x80 + c / 64 % 64, 0x80 + c % 64]
  else if c < 0x110000 then
    some [0xF0 + c / 262144, 0x80 + c / 4096 % 64, 0x80 + c / 64 % 64, 0x80 + c % 64]
  else none

/-- UTF-8 encoding of a string, `str.encode('utf-8')`. -/
def utf8Encode? : List Nat → Option (List Nat)
  | [] => some []
  | c :: cs =>
    match utf8EncodeChar? c, utf8Encode? cs with
    | some b, some bs => some (b ++ bs)
    | _, _ => none

/-- `parse_channel_info` followed by `.get('channel', None)`: decode the
value bytes as UTF-8, parse the channel object, and on either failure
fall back to the dictionary `\x7b'channel': lossy-decoded-bytes\x7d`
that the source builds in its `except` branch. -/
def parseChannelInfo (v : List Nat) : Option (List Nat) :=
  match utf8Decode? v with
  | none => some (utf8DecodeIgnore v)
  | some cps =>
    match jsonParseChannel cps with
    | some s => some s
    | none => some (utf8DecodeIgnore v)

/-- The fallible body of `inject_channel` (the `try` block).  Errors
carry the destination file state at the point of failure: before the
step-10 rewrite that state is still the byte-identical copy of the
source. -/
def injectChannelEx (src : List Nat) (ch : List Nat) :
    Except (WErr × List Nat) (List Nat) :=
  match getCommentLength src with
  | none => .error (.eocdNotFound, src)
  | some c =>
    match findCentralDirOffset src c with
    | none => .error (.shortRead, src)
    | some cd =>
      match findApkSigningBlock src cd with
      | .error e => .error (e, src)
      | .ok (block, s) =>
        match findIdValues block with
        | .error _ => .error (.corrupt, src)
        | .ok m =>
          if hasKey m apkSigV2Id then
            let m1 := if hasKey m verityPaddingId then eraseKey m verityPaddingId else m
            match utf8Encode? (createChannelInfo ch) with
            | none => .error (.encodeError, src)
            | some cb =>
              let m2 := upd m1 walleChannelId cb
              match createApkSigningBlock m2 with
              | none => .error (.packError, src)
              | some nb =>
                let dst0 := src.take s ++ nb ++ src.drop cd
                let ncd := s + nb.length
                if dst0.length < c + 6 then .error (.patchSeekError, dst0)
                else
                  match u32le? ncd with
                  | none => .error (.patchPackError, dst0)
                  | some pb => .ok (writeBytes dst0 (dst0.length - c - 6) pb)
          else .error (.sigMissing, src)

/-- `inject_channel`: the outer `try/except` returns `True` with the
rewritten destination, or `False` with whatever the destination holds
at the point of failure. -/
def injectChannel (src : List Nat) (ch : List Nat) : Bool × List Nat :=
  match injectChannelEx src ch with
  | .ok d => (true, d)
  | .error (_, d) => (false, d)

/-- The fallible body of `get_channel` (the `try` block): `ok none` is
the defined absent result when no channel entry exists. -/
def getChannelEx (f : List Nat) : Except WErr (Option (List Nat)) :=
  match getCommentLength f with
  | none => .error .eocdNotFound
  | some c =>
    match findCentralDirOffset f c with
    | none => .error .shortRead
    | some cd =>
      match findApkSigningBlock f cd with
      | .error e => .error e
      | .ok (block, _) =>
        match findIdValues block with
        | .error _ => .error .corrupt
        | .ok m =>
          match lookupA m walleChannelId with
          | none => .ok none
          | some v => .ok (parseChannelInfo v)

/-- `get_channel`: the outer `try/except` folds every failure into
`None`, the same value returned for a missing channel entry. -/
def getChannel (f : List Nat) : Option (List Nat) :=
  match getChannelEx f with
  | .ok v => v
  | .error _ => none

/-- Iterated dict update: the accumulation `id_values[id] = value` that
the decode loop performs over a list of entries. -/
def updFold (acc : List (Nat × List Nat)) (m : List (Nat × List Nat)) :
    List (Nat × List Nat) :=
  m.foldl (fun a p => upd a p.1 p.2) acc

/-! Concrete test fixtures used as witnesses and counterexamples. -/

/-- Fixture: value bytes of the Reserved Signature Entry in the concrete
archives below. -/
def wV2Value : List Nat := [170, 187]

/-- Fixture: a minimal well-formed signing container (46 bytes) holding
only the Reserved Signature Entry. -/
def wBlock : List Nat :=
  leBytes 8 38 ++ (leBytes 8 6 ++ leBytes 4 apkSigV2Id ++ wV2Value) ++
  leBytes 8 38 ++ leBytes 8 apkSigBlockMagicLo ++ leBytes 8 apkSigBlockMagicHi

/-- Fixture: an EOCD record with the given central-directory-size bytes,
central-directory offset and comment length. -/
def wEocd (cdsz : List Nat) (cd clen : Nat) : List Nat :=
  leBytes 4 eocdSig ++ List.replicate 8 0 ++ cdsz ++ leBytes 4 cd ++ leBytes 2 clen

/-- Fixture: a minimal well-formed 68-byte archive: the signing container
immediately followed by an empty central directory and the EOCD. -/
def wSrc : List Nat := wBlock ++ wEocd (leBytes 4 0) 46 0

/-- Fixture: the channel string "X". -/
def wCh : List Nat := [88]

/-- Fixture: the destination produced by injecting `wCh` into `wSrc`. -/
def wDst : List Nat := (injectChannel wSrc wCh).2

/-- Fixture: the decoded pair map of `wBlock`. -/
def wM : List (Nat × List Nat) := [(apkSigV2Id, wV2Value)]

/-- Fixture: the channel payload bytes injected for `wCh`. -/
def wCb : List Nat := (utf8Encode? (createChannelInfo wCh)).getD []

/-- Fixture: the rewritten container for `wSrc` and `wCh`. -/
def wNb : List Nat := (createApkSigningBlock (upd wM walleChannelId wCb)).getD []

/-- Counterexample fixture: a 269-byte archive with comment length 13
whose comment bytes and central-directory-size bytes are crafted so
that the central-directory-offset patch of a later injection forges a
self-consistent EOCD candidate at comment length 0. -/
def cSrc : List Nat :=
  List.replicate 188 0 ++ wBlock ++
  wEocd [0, 0x50, 0x4b, 0x05] 234 13 ++ List.replicate 13 0

/-- Counterexample fixture: a 46-byte container whose single entry
declares length 1000, far past the pair region. -/
def c2Block : List Nat :=
  leBytes 8 38 ++ (leBytes 8 1000 ++ leBytes 4 5 ++ [1, 2]) ++ List.replicate 24 0

/-- Fixture: a signing container without the Reserved Signature Entry. -/
def wNoV2Block : List Nat :=
  leBytes 8 38 ++ (leBytes 8 6 ++ leBytes 4 0x99 ++ [1, 2]) ++
  leBytes 8 38 ++ leBytes 8 apkSigBlockMagicLo ++ leBytes 8 apkSigBlockMagicHi

/-- Fixture: an archive whose container lacks the Reserved Signature
Entry. -/
def wNoV2Src : List Nat := wNoV2Block ++ wEocd (leBytes 4 0) 46 0

/-! Basic facts about the byte-level primitives. -/

theorem leBytes_length (w n : Nat) : (leBytes w n).length = w := by
  induction w generalizing n with
  | zero => rfl
  | succ w ih => simp [leBytes, ih]

theorem leNum_leBytes (w n : Nat) (h : n < 2 ^ (8 * w)) :
    leNum (leBytes w n) = n := by
  induction w generalizing n with
  | zero => simp at h; simp [h, leBytes, leNum]
  | succ w ih =>
    have hpow : 2 ^ (8 * (w + 1)) = 2 ^ (8 * w) * 256 := by
      rw [show 8 * (w + 1) = 8 * w + 8 by ring, pow_add]; norm_num
    have hdiv : n / 256 < 2 ^ (8 * w) := by
      rw [Nat.div_lt_iff_lt_mul (by norm_num)]; omega
    simp [leBytes, leNum, ih _ hdiv]
    omega

theorem extract_length (f : List Nat) (off n : Nat) :
    (extract f off n).length = min n (f.length - off) := by
  simp [extract]

theorem extract_length_of_le {f : List Nat} {off n : Nat}
    (h : off + n ≤ f.length) : (extract f off n).length = n := by
  simp [extract]; omega

theorem extract_self (f : List Nat) : extract f 0 f.length = f := by
  simp [extract]

theorem extract_append_right (a b : List Nat) (i n : Nat) :
    extract (a ++ b) (a.length + i) n = extract b i n := by
  simp [extract, List.drop_append]

theorem extract_append_left {a : List Nat} (b : List Nat) {off n : Nat}
    (h : off + n ≤ a.length) :
    extract (a ++ b) off n = extract a off n := by
  unfold extract
  rw [List.drop_append_of_le_length (by omega),
    List.take_append_of_le_length (by simp; omega)]

theorem extract_prefix (a b : List Nat) : extract (a ++ b) 0 a.length = a := by
  simpa [extract] using List.take_left a b

theorem length_writeBytes {f : List Nat} {p : Nat} {bs : List Nat}
    (h : p + bs.length ≤ f.length) :
    (writeBytes f p bs).length = f.length := by
  simp [writeBytes]; omega

theorem extract_append_mid {a : List Nat} (b : List Nat) {off n : Nat}
    (h : a.length ≤ off) :
    extract (a ++ b) off n = extract b (off - a.length) n := by
  unfold extract
  conv_lhs => rw [show off = a.length + (off - a.length) from by omega,
    List.drop_append]

theorem extract_writeBytes_self {f : List Nat} {p : Nat} {bs : List Nat}
    (h : p + bs.length ≤ f.length) :
    extract (writeBytes f p bs) p bs.length = bs := by
  unfold writeBytes
  rw [List.append_assoc, extract_append_mid _ (by simp)]
  rw [show p - (f.take p).length = 0 from by simp; omega]
  exact extract_prefix bs _

theorem extract_writeBytes_before {f : List Nat} {p : Nat} {bs : List Nat}
    {off n : Nat} (h1 : off + n ≤ p) (h2 : p ≤ f.length) :
    extract (writeBytes f p bs) off n = extract f off n := by
  unfold writeBytes
  rw [List.append_assoc, extract_append_left _ (by simp; omega)]
  unfold extract
  rw [List.drop_take, List.take_take]
  congr 1
  omega

/-! A characterization of `List.find?` over `List.range`, used for the
EOCD scan. -/

theorem find?_range_eq_some {p : Nat → Bool} {n c : Nat} :
    (List.range n).find? p = some c ↔
      c < n ∧ p c = true ∧ ∀ k < c, p k = false := by
  constructor
  · intro h
    have hp : p c = true := List.find?_some h
    rw [List.find?_eq_some] at h
    obtain ⟨-, as, bs, heq, hall⟩ := h
    have hlen : as.length + 1 + bs.length = n := by
      have := congrArg List.length heq
      simp at this
      omega
    have hc : c = as.length := by
      have hget := @List.getElem?_range as.length n (by omega)
      rw [heq, List.getElem?_append_right (le_refl as.length)] at hget
      simp at hget
      omega
    have has : as = List.range as.length := by
      have h2 := congrArg (List.take as.length) heq
      rw [List.take_range, List.take_left] at h2
      rw [show as.length ⊓ n = as.length from by omega] at h2
      exact h2.symm
    refine ⟨by omega, hp, fun k hk => ?_⟩
    have hk' : k ∈ as := by
      rw [has, List.mem_range]; omega
    have := hall k hk'
    simpa using this
  · rintro ⟨hc, hp, hall⟩
    rw [List.find?_eq_some]
    refine ⟨hp, List.range c, List.range' (c + 1) (n - c - 1), ?_, ?_⟩
    · have h1 := List.range'_append 0 c (n - c) 1
      simp only [zero_add, one_mul] at h1
      rw [show n - c + c = n from by omega] at h1
      have h2 : List.range' c (n - c) = c :: List.range' (c + 1) (n - c - 1) := by
        conv_lhs => rw [show n - c = (n - c - 1) + 1 from by omega]
        rw [List.range'_succ]
      rw [List.range_eq_range', List.range_eq_range', ← h1, h2]
    · intro a ha
      simp [hall a (List.mem_range.mp ha)]

/-! Facts about the association-list model of Python dicts. -/

theorem lookupA_append (a b : List (Nat × List Nat)) (k : Nat) :
    lookupA (a ++ b) k = (lookupA a k).or (lookupA b k) := by
  induction a with
  | nil => simp [lookupA]
  | cons p rest ih =>
    obtain ⟨i, v⟩ := p
    by_cases h : i = k <;> simp [lookupA, h, ih]

theorem lookupA_eq_none {m : List (Nat × List Nat)} {k : Nat} :
    lookupA m k = none ↔ k ∉ m.map Prod.fst := by
  induction m with
  | nil => simp [lookupA]
  | cons p rest ih =>
    obtain ⟨i, v⟩ := p
    by_cases h : i = k
    · subst h; simp [lookupA]
    · have hki : ¬ k = i := fun hc => h hc.symm
      simp [lookupA, h, List.mem_cons, not_or, hki, ih]

theorem hasKey_iff {m : List (Nat × List Nat)} {k : Nat} :
    hasKey m k = true ↔ k ∈ m.map Prod.fst := by
  unfold hasKey
  rw [Option.isSome_iff_ne_none, ne_eq, lookupA_eq_none, not_not]

theorem lookupA_of_not_hasKey {m : List (Nat × List Nat)} {k : Nat}
    (h : hasKey m k = false) : lookupA m k = none := by
  unfold hasKey at h
  cases hl : lookupA m k
  · rfl
  · rw [hl] at h; simp at h

theorem upd_of_not_hasKey {m : List (Nat × List Nat)} {k : Nat}
    (v : List Nat) (h : hasKey m k = false) : upd m k v = m ++ [(k, v)] := by
  simp [upd, h]

theorem lookupA_updAll_self {m : List (Nat × List Nat)} {k : Nat}
    (v : List Nat) (h : hasKey m k = true) :
    lookupA (updAll m k v) k = some v := by
  induction m with
  | nil => simp [hasKey, lookupA] at h
  | cons p rest ih =>
    obtain ⟨i, w⟩ := p
    simp only [updAll]
    by_cases hik : i = k
    · rw [if_pos hik]
      simp [lookupA]
    · rw [if_neg hik]
      have h2 : hasKey rest k = true := by
        simpa [hasKey, lookupA, hik] using h
      simp [lookupA, hik, ih h2]

theorem lookupA_updAll_other {m : List (Nat × List Nat)} {k : Nat}
    (v : List Nat) {j : Nat} (h : j ≠ k) :
    lookupA (updAll m k v) j = lookupA m j := by
  induction m with
  | nil => simp [updAll]
  | cons p rest ih =>
    obtain ⟨i, w⟩ := p
    simp only [updAll]
    by_cases hik : i = k
    · subst hik
      rw [if_pos rfl]
      have hij : ¬ i = j := fun hc => h hc.symm
      simp [lookupA, hij, ih]
    · rw [if_neg hik]
      simp [lookupA, ih]

theorem lookupA_upd_self (m : List (Nat × List Nat)) (k : Nat)
    (v : List Nat) : lookupA (upd m k v) k = some v := by
  unfold upd
  by_cases h : hasKey m k
  · simp [h, lookupA_updAll_self v h]
  · simp only [Bool.not_eq_true] at h
    simp [h, lookupA_append, lookupA_of_not_hasKey h, lookupA]

theorem lookupA_upd_other (m : List (Nat × List Nat)) (k : Nat)
    (v : List Nat) {j : Nat} (h : j ≠ k) :
    lookupA (upd m k v) j = lookupA m j := by
  unfold upd
  by_cases hk : hasKey m k
  · simp [hk, lookupA_updAll_other v h]
  · simp only [Bool.not_eq_true] at hk
    have hkj : ¬ k = j := fun hc => h hc.symm
    simp [hk, lookupA_append, lookupA, hkj]

theorem lookupA_eraseKey_other (m : List (Nat × List Nat)) (k : Nat)
    {j : Nat} (h : j ≠ k) : lookupA (eraseKey m k) j = lookupA m j := by
  induction m with
  | nil => simp [eraseKey, lookupA]
  | cons p rest ih =>
    obtain ⟨i, w⟩ := p
    by_cases hik : i = k
    · subst hik
      have hij : ¬ i = j := fun hc => h hc.symm
      rw [show eraseKey ((i, w) :: rest) i = eraseKey rest i from by
        simp [eraseKey, List.filter_cons]]
      rw [ih]
      simp [lookupA, hij]
    · rw [show eraseKey ((i, w) :: rest) k = (i, w) :: eraseKey rest k from by
        simp [eraseKey, List.filter_cons, hik]]
      simp [lookupA, ih]

theorem map_fst_updAll (m : List (Nat × List Nat)) (k : Nat) (v : List Nat) :
    (updAll m k v).map Prod.fst = m.map Prod.fst := by
  induction m with
  | nil => simp [updAll]
  | cons p rest ih =>
    obtain ⟨i, w⟩ := p
    by_cases hik : i = k
    · subst hik; simp [updAll, ih]
    · simp [updAll, hik, ih]

theorem map_fst_upd (m : List (Nat × List Nat)) (k : Nat) (v : List Nat) :
    (upd m k v).map Prod.fst =
      if hasKey m k then m.map Prod.fst else m.map Prod.fst ++ [k] := by
  unfold upd
  by_cases h : hasKey m k <;> simp [h, map_fst_updAll]

theorem nodup_upd {m : List (Nat × List Nat)} {k : Nat} (v : List Nat)
    (h : (m.map Prod.fst).Nodup) : ((upd m k v).map Prod.fst).Nodup := by
  rw [map_fst_upd]
  by_cases hk : hasKey m k <;> simp only [hk, if_true, if_false]
  · exact h
  · have hnotin : k ∉ List.map Prod.fst m := fun hc =>
      absurd (hasKey_iff.mpr hc) (by simp [hk])
    refine List.Nodup.append h (List.nodup_singleton k) ?_
    intro a ha hb
    simp at hb
    exact hnotin (hb ▸ ha)

theorem nodup_eraseKey {m : List (Nat × List Nat)} (k : Nat)
    (h : (m.map Prod.fst).Nodup) : ((eraseKey m k).map Prod.fst).Nodup := by
  have hsub : List.Sublist ((eraseKey m k).map Prod.fst) (m.map Prod.fst) :=
    (List.filter_sublist m).map Prod.fst
  exact h.sublist hsub

theorem hasKey_append (a b : List (Nat × List Nat)) (k : Nat) :
    hasKey (a ++ b) k = (hasKey a k || hasKey b k) := by
  unfold hasKey
  rw [lookupA_append]
  cases lookupA a k <;> simp

theorem updFold_append (m : List (Nat × List Nat)) :
    ∀ acc, (m.map Prod.fst).Nodup →
      (∀ p ∈ m, hasKey acc p.1 = false) → updFold acc m = acc ++ m := by
  induction m with
  | nil => intro acc _ _; simp [updFold]
  | cons p rest ih =>
    intro acc hnd hdis
    obtain ⟨i, v⟩ := p
    rw [List.map_cons, List.nodup_cons] at hnd
    have h1 : hasKey acc i = false := hdis (i, v) (by simp)
    have h2 : updFold acc ((i, v) :: rest) = updFold (acc ++ [(i, v)]) rest := by
      simp [updFold, List.foldl_cons, upd_of_not_hasKey v h1]
    rw [h2, ih (acc ++ [(i, v)]) hnd.2]
    · simp
    · intro q hq
      rw [hasKey_append]
      have hmem : q.1 ∈ List.map Prod.fst rest := List.mem_map_of_mem Prod.fst hq
      have hqi : ¬ i = q.1 := fun hc => hnd.1 (hc.symm ▸ hmem)
      have hq1 : hasKey acc q.1 = false := hdis q (by simp [hq])
      have hq2 : hasKey [(i, v)] q.1 = false := by
        simp [hasKey, lookupA, hqi]
      simp [hq1, hq2]

/-! Facts about the pair codec. -/

theorem u64le?_eq_some {n : Nat} {bs : List Nat} (h : u64le? n = some bs) :
    bs = leBytes 8 n ∧ n < 2 ^ 64 := by
  unfold u64le? at h
  split_ifs at h with hn
  exact ⟨(Option.some.inj h).symm, hn⟩

theorem u32le?_eq_some {n : Nat} {bs : List Nat} (h : u32le? n = some bs) :
    bs = leBytes 4 n ∧ n < 2 ^ 32 := by
  unfold u32le? at h
  split_ifs at h with hn
  exact ⟨(Option.some.inj h).symm, hn⟩

theorem extract_chunk {pre : List Nat} (mid rest2 : List Nat) {pos n : Nat}
    (hpos : pos = pre.length) (hn : n = mid.length) :
    extract (pre ++ (mid ++ rest2)) pos n = mid := by
  subst hpos hn
  rw [extract_append_mid _ (le_refl _), Nat.sub_self]
  exact extract_prefix mid rest2

/-- The decode loop never fails given sufficient fuel, and preserves
distinctness of the accumulated keys: there is no bounds check on an
entry's declared length, the final value slice simply clamps. -/
theorem decodePairsAux_ok (block : List Nat) :
    ∀ (fuel pos : Nat) (acc : List (Nat × List Nat)),
      block.length - 24 ≤ pos + 8 * fuel → (acc.map Prod.fst).Nodup →
      ∃ m, decodePairsAux block fuel pos acc = .ok m ∧ (m.map Prod.fst).Nodup := by
  intro fuel
  induction fuel with
  | zero =>
    intro pos acc hfuel hnd
    rw [decodePairsAux.eq_def, if_neg (by omega)]
    exact ⟨acc, rfl, hnd⟩
  | succ fuel ih =>
    intro pos acc hfuel hnd
    rw [decodePairsAux.eq_def]
    by_cases h : pos < block.length - 24
    · rw [if_pos h]
      have h8 : sliceU64? block pos = some (leNum (extract block pos 8)) := by
        unfold sliceU64?; rw [if_pos (by omega)]
      have h4 : sliceU32? block (pos + 8) =
          some (leNum (extract block (pos + 8) 4)) := by
        unfold sliceU32?; rw [if_pos (by omega)]
      rw [h8, h4]
      exact ih (pos + 8 + leNum (extract block pos 8)) _
        (by omega) (nodup_upd _ hnd)
    · rw [if_neg h]
      exact ⟨acc, rfl, hnd⟩

/-- Decoding an encoded pair sequence: the decode loop over
`pre ++ pairs ++ footer` starting at the end of `pre` replays exactly
the dict updates for the encoded entries. -/
theorem decodePairs_pack (m : List (Nat × List Nat)) :
    ∀ (pre pb post : List Nat) (acc : List (Nat × List Nat)) (pos fuel : Nat),
      packPairs m = some pb → post.length = 24 → pos = pre.length →
      (pre ++ (pb ++ post)).length - 24 ≤ pos + 8 * fuel →
      decodePairsAux (pre ++ (pb ++ post)) fuel pos acc = .ok (updFold acc m) := by
  induction m with
  | nil =>
    intro pre pb post acc pos fuel hpk hpost hpos hfuel
    simp only [packPairs, Option.some.injEq] at hpk
    subst hpk
    rw [decodePairsAux.eq_def, if_neg (by simp [hpost]; omega)]
    simp [updFold]
  | cons p rest ih =>
    intro pre pb post acc pos fuel hpk hpost hpos hfuel
    obtain ⟨i, v⟩ := p
    simp only [packPairs] at hpk
    cases hsz : u64le? (4 + v.length) with
    | none => rw [hsz] at hpk; simp at hpk
    | some sz =>
    cases hid : u32le? i with
    | none => rw [hsz, hid] at hpk; simp at hpk
    | some idb =>
    cases hrest : packPairs rest with
    | none => rw [hsz, hid, hrest] at hpk; simp at hpk
    | some pbrest =>
    rw [hsz, hid, hrest] at hpk
    simp only [Option.some.injEq] at hpk
    subst hpk
    simp only [List.append_assoc] at hfuel ⊢
    obtain ⟨hszB, hszLt⟩ := u64le?_eq_some hsz
    obtain ⟨hidB, hidLt⟩ := u32le?_eq_some hid
    have hszLen : sz.length = 8 := by rw [hszB]; exact leBytes_length 8 _
    have hidLen : idb.length = 4 := by rw [hidB]; exact leBytes_length 4 _
    have hBlockLen : (pre ++ (sz ++ (idb ++ (v ++ (pbrest ++ post))))).length =
        pre.length + 12 + v.length + pbrest.length + 24 := by
      simp [hszLen, hidLen, hpost]
      omega
    have hfuel1 : ∃ fuel2, fuel = fuel2 + 1 := by
      rcases fuel with - | fuel2
      · exfalso
        rw [hBlockLen] at hfuel
        omega
      · exact ⟨fuel2, rfl⟩
    obtain ⟨fuel2, rfl⟩ := hfuel1
    rw [decodePairsAux.eq_def, if_pos (by rw [hBlockLen]; omega)]
    have hread8 : sliceU64? (pre ++ (sz ++ (idb ++ (v ++ (pbrest ++ post)))))
        pos = some (4 + v.length) := by
      unfold sliceU64?
      rw [if_pos (by rw [hBlockLen]; omega),
        extract_chunk sz (idb ++ (v ++ (pbrest ++ post))) hpos hszLen.symm,
        hszB, leNum_leBytes 8 _ hszLt]
    have hB2 : pre ++ (sz ++ (idb ++ (v ++ (pbrest ++ post)))) =
        (pre ++ sz) ++ (idb ++ (v ++ (pbrest ++ post))) := by
      simp [List.append_assoc]
    have hread4 : sliceU32? (pre ++ (sz ++ (idb ++ (v ++ (pbrest ++ post)))))
        (pos + 8) = some i := by
      unfold sliceU32?
      rw [if_pos (by rw [hBlockLen]; omega), hB2,
        extract_chunk idb (v ++ (pbrest ++ post)) (by simp [hpos, hszLen])
          hidLen.symm,
        hidB, leNum_leBytes 4 _ hidLt]
    rw [hread8, hread4]
    have hB3 : pre ++ (sz ++ (idb ++ (v ++ (pbrest ++ post)))) =
        ((pre ++ sz) ++ idb) ++ (v ++ (pbrest ++ post)) := by
      simp [List.append_assoc]
    have hval : extract (pre ++ (sz ++ (idb ++ (v ++ (pbrest ++ post)))))
        (pos + 12) (4 + v.length - 4) = v := by
      rw [hB3, extract_chunk v (pbrest ++ post)
        (by simp [hpos, hszLen, hidLen]; try omega) (by omega)]
    simp only [hval]
    have hB4 : pre ++ (sz ++ (idb ++ (v ++ (pbrest ++ post)))) =
        (((pre ++ sz) ++ idb) ++ v) ++ (pbrest ++ post) := by
      simp [List.append_assoc]
    rw [hB4, ih (((pre ++ sz) ++ idb) ++ v) pbrest post (upd acc i v)
      (pos + 8 + (4 + v.length)) fuel2 hrest hpost
      (by simp [hpos, hszLen, hidLen]; try omega)
      (by
        simp only [List.length_append, List.length_cons, hszLen, hidLen, hpost] at hfuel ⊢
        omega)]
    simp [updFold]

theorem createApkSigningBlock_eq {m : List (Nat × List Nat)} {nb : List Nat}
    (h : createApkSigningBlock m = some nb) :
    ∃ pb, packPairs m = some pb ∧ pb.length + 24 < 2 ^ 64 ∧
      nb = leBytes 8 (pb.length + 24) ++
        (pb ++ (leBytes 8 (pb.length + 24) ++
          (leBytes 8 apkSigBlockMagicLo ++ leBytes 8 apkSigBlockMagicHi))) ∧
      nb.length = pb.length + 32 := by
  unfold createApkSigningBlock at h
  cases hpk : packPairs m with
  | none => rw [hpk] at h; simp at h
  | some pb =>
    rw [hpk] at h
    simp only at h
    cases hsz : u64le? (8 + pb.length + 24 - 8) with
    | none => rw [hsz] at h; simp at h
    | some szb =>
      rw [hsz] at h
      simp only [Option.some.injEq] at h
      obtain ⟨hszB, hszLt⟩ := u64le?_eq_some hsz
      have he : 8 + pb.length + 24 - 8 = pb.length + 24 := by omega
      rw [he] at hszB hszLt
      refine ⟨pb, rfl, hszLt, ?_, ?_⟩
      · rw [← h, hszB]
        simp [List.append_assoc]
      · rw [← h, hszB]
        simp [leBytes_length]
        omega

/-- Decoding the container built by `_create_apk_signing_block` recovers
exactly the pair map it was built from. -/
theorem findIdValues_createApkSigningBlock {m : List (Nat × List Nat)}
    {nb : List Nat} (hnd : (m.map Prod.fst).Nodup)
    (h : createApkSigningBlock m = some nb) : findIdValues nb = .ok m := by
  obtain ⟨pb, hpk, hlt, hnb, hnblen⟩ := createApkSigningBlock_eq h
  unfold findIdValues
  rw [hnb, decodePairs_pack m (leBytes 8 (pb.length + 24)) pb
    (leBytes 8 (pb.length + 24) ++
      (leBytes 8 apkSigBlockMagicLo ++ leBytes 8 apkSigBlockMagicHi)) [] 8
    (leBytes 8 (pb.length + 24) ++
      (pb ++ (leBytes 8 (pb.length + 24) ++
        (leBytes 8 apkSigBlockMagicLo ++ leBytes 8 apkSigBlockMagicHi)))).length
    hpk (by simp [leBytes_length]) (by simp [leBytes_length])
    (by simp [leBytes_length]; omega)]
  rw [updFold_append m [] hnd (fun p hp => rfl)]
  simp

/-! UTF-8 and JSON round-trip facts for the channel payload. -/

theorem utf8Step_length {l : List Nat} {c : Nat} {r : List Nat}
    (h : utf8Step l = some (c, r)) : r.length < l.length := by
  rcases l with - | ⟨b, rest⟩
  · simp [utf8Step] at h
  rcases rest with - | ⟨b1, r1⟩
  · simp only [utf8Step] at h
    split_ifs at h <;> simp_all <;> omega
  rcases r1 with - | ⟨b2, r2⟩
  · simp only [utf8Step] at h
    split_ifs at h <;> simp_all <;> omega
  rcases r2 with - | ⟨b3, r3⟩
  · simp only [utf8Step] at h
    split_ifs at h <;> simp_all <;> omega
  simp only [utf8Step] at h
  split_ifs at h <;> simp_all <;> omega

theorem utf8DecodeAux_eq : ∀ (fuel : Nat) (l : List Nat), l.length ≤ fuel →
    utf8DecodeAux fuel l = utf8Decode? l := by
  intro fuel
  induction fuel using Nat.strong_induction_on with
  | _ fuel ih =>
    intro l h
    cases fuel with
    | zero =>
      have hl : l = [] := by
        cases l
        · rfl
        · simp at h
      subst hl
      rfl
    | succ fuel =>
      cases l with
      | nil => simp [utf8DecodeAux, utf8Step, utf8Decode?]
      | cons b rest =>
        rw [List.length_cons] at h
        cases hstep : utf8Step (b :: rest) with
        | some p =>
          obtain ⟨c, r⟩ := p
          have hr : r.length < rest.length + 1 := by
            have := utf8Step_length hstep
            simpa using this
          simp only [utf8DecodeAux, hstep]
          rw [ih fuel (by omega) r (by omega)]
          unfold utf8Decode?
          simp only [List.length_cons, utf8DecodeAux, hstep]
          rw [ih rest.length (by omega) r (by omega)]
          rfl
        | none =>
          simp only [utf8DecodeAux, hstep]
          unfold utf8Decode?
          simp only [List.length_cons, utf8DecodeAux, hstep]

theorem utf8Decode?_step (l : List Nat) :
    utf8Decode? l =
      match utf8Step l with
      | some (c, r) => (utf8Decode? r).map (c :: ·)
      | none => if l.isEmpty then some [] else none := by
  cases hstep : utf8Step l with
  | some p =>
    obtain ⟨c, r⟩ := p
    cases l with
    | nil => simp [utf8Step] at hstep
    | cons b rest =>
      have hr : r.length < rest.length + 1 := by
        have := utf8Step_length hstep
        simpa using this
      unfold utf8Decode?
      simp only [List.length_cons, utf8DecodeAux, hstep]
      rw [utf8DecodeAux_eq rest.length r (by omega)]
      rfl
  | none =>
    cases l with
    | nil => rfl
    | cons b rest =>
      unfold utf8Decode?
      simp only [List.length_cons, utf8DecodeAux, hstep]

theorem utf8Step_encodeChar {c : Nat} {b : List Nat}
    (hb : utf8EncodeChar? c = some b) (rest : List Nat) :
    utf8Step (b ++ rest) = some (c, rest) := by
  unfold utf8EncodeChar? at hb
  split_ifs at hb with h1 h2 h3 hs h4
  · -- one byte
    cases hb
    simp only [List.cons_append, List.nil_append]
    rw [utf8Step.eq_def]
    simp [h1]
  · -- two bytes
    cases hb
    have e1 : ¬ (0xC0 + c / 64) < 0x80 := by omega
    have e2 : ¬ (0xC0 + c / 64) < 0xC2 := by omega
    have e3 : (0xC0 + c / 64) < 0xE0 := by omega
    have e4 : utf8Tail2Ok (0x80 + c % 64) = true := by
      simp only [utf8Tail2Ok, decide_eq_true_eq]
      omega
    simp only [List.cons_append, List.nil_append]
    rw [utf8Step.eq_def]
    simp only [e1, e2, e3, e4, if_true, if_false, ite_true, ite_false,
      Option.some.injEq, Prod.mk.injEq, eq_self_iff_true, and_true]
    omega
  · -- three bytes
    cases hb
    have e1 : ¬ (0xE0 + c / 4096) < 0x80 := by omega
    have e2 : ¬ (0xE0 + c / 4096) < 0xC2 := by omega
    have e3 : ¬ (0xE0 + c / 4096) < 0xE0 := by omega
    have e4 : (0xE0 + c / 4096) < 0xF0 := by omega
    have hs' : c < 0xD800 ∨ 0xE000 ≤ c := by
      rcases Nat.lt_or_ge c 0xD800 with h | h
      · exact Or.inl h
      · rcases Nat.lt_or_ge c 0xE000 with h' | h'
        · exact absurd ⟨h, h'⟩ hs
        · exact Or.inr h'
    have e5 : utf8Tail3Ok (0xE0 + c / 4096) (0x80 + c / 64 % 64) (0x80 + c % 64) = true := by
      simp only [utf8Tail3Ok, decide_eq_true_eq]
      rcases hs' with h | h <;>
        exact ⟨by omega, by omega, fun hz => by omega, fun hz => by omega⟩
    simp only [List.cons_append, List.nil_append]
    rw [utf8Step.eq_def]
    simp only [e1, e2, e3, e4, e5, if_true, if_false, ite_true, ite_false,
      Option.some.injEq, Prod.mk.injEq, eq_self_iff_true, and_true]
    omega
  · -- four bytes
    cases hb
    have e1 : ¬ (0xF0 + c / 262144) < 0x80 := by omega
    have e2 : ¬ (0xF0 + c / 262144) < 0xC2 := by omega
    have e3 : ¬ (0xF0 + c / 262144) < 0xE0 := by omega
    have e4 : ¬ (0xF0 + c / 262144) < 0xF0 := by omega
    have e5 : (0xF0 + c / 262144) < 0xF5 := by omega
    have e6 : utf8Tail4Ok (0xF0 + c / 262144) (0x80 + c / 4096 % 64)
        (0x80 + c / 64 % 64) (0x80 + c % 64) = true := by
      simp only [utf8Tail4Ok, decide_eq_true_eq]
      exact ⟨by omega, by omega, by omega, fun hz => by omega, fun hz => by omega⟩
    simp only [List.cons_append, List.nil_append]
    rw [utf8Step.eq_def]
    simp only [e1, e2, e3, e4, e5, e6, if_true, if_false, ite_true, ite_false,
      Option.some.injEq, Prod.mk.injEq, eq_self_iff_true, and_true]
    omega

theorem utf8Decode?_encodeChar {c : Nat} {b : List Nat}
    (hb : utf8EncodeChar? c = some b) (rest : List Nat) :
    utf8Decode? (b ++ rest) = (utf8Decode? rest).map (c :: ·) := by
  rw [utf8Decode?_step, utf8Step_encodeChar hb]

theorem utf8Decode?_utf8Encode? (ch : List Nat) :
    ∀ bs, utf8Encode? ch = some bs → utf8Decode? bs = some ch := by
  induction ch with
  | nil =>
    intro bs h
    simp only [utf8Encode?, Option.some.injEq] at h
    subst h
    rfl
  | cons c cs ih =>
    intro bs h
    simp only [utf8Encode?] at h
    cases hc : utf8EncodeChar? c with
    | none => rw [hc] at h; simp at h
    | some b =>
    cases hcs : utf8Encode? cs with
    | none => rw [hc, hcs] at h; simp at h
    | some brest =>
    rw [hc, hcs] at h
    simp only [Option.some.injEq] at h
    subst h
    rw [utf8Decode?_encodeChar hc brest, ih brest hcs]
    rfl

theorem hexVal?_hexDigitChar {n : Nat} (h : n < 16) :
    hexVal? (hexDigitChar n) = some n := by
  unfold hexVal? hexDigitChar
  split_ifs <;> (try omega) <;> (simp only [Option.some.injEq]; omega)

theorem dropLit_append (p l : List Nat) : dropLit p (p ++ l) = some l := by
  induction p with
  | nil => rfl
  | cons c cs ih => simp [dropLit, ih]

theorem parseJsonString_escape (ch : List Nat) (tail2 : List Nat) :
    parseJsonString ((ch.map jsonEscapeChar).flatten ++ (34 :: tail2)) =
      some (ch, tail2) := by
  induction ch with
  | nil =>
    rw [List.map_nil, List.flatten_nil, List.nil_append, parseJsonString.eq_def]
    simp
  | cons c cs ih =>
    rw [List.map_cons, List.flatten_cons, List.append_assoc]
    by_cases h1 : c = 34
    · subst h1
      rw [show jsonEscapeChar 34 = [92, 34] from by norm_num [jsonEscapeChar]]
      simp only [List.cons_append, List.nil_append]
      rw [parseJsonString.eq_def]
      simp [jsonUnescape?, ih]
    by_cases h2 : c = 92
    · subst h2
      rw [show jsonEscapeChar 92 = [92, 92] from by norm_num [jsonEscapeChar]]
      simp only [List.cons_append, List.nil_append]
      rw [parseJsonString.eq_def]
      simp [jsonUnescape?, ih]
    by_cases h3 : c = 8
    · subst h3
      rw [show jsonEscapeChar 8 = [92, 98] from by norm_num [jsonEscapeChar]]
      simp only [List.cons_append, List.nil_append]
      rw [parseJsonString.eq_def]
      simp [jsonUnescape?, ih]
    by_cases h4 : c = 9
    · subst h4
      rw [show jsonEscapeChar 9 = [92, 116] from by norm_num [jsonEscapeChar]]
      simp only [List.cons_append, List.nil_append]
      rw [parseJsonString.eq_def]
      simp [jsonUnescape?, ih]
    by_cases h5 : c = 10
    · subst h5
      rw [show jsonEscapeChar 10 = [92, 110] from by norm_num [jsonEscapeChar]]
      simp only [List.cons_append, List.nil_append]
      rw [parseJsonString.eq_def]
      simp [jsonUnescape?, ih]
    by_cases h6 : c = 12
    · subst h6
      rw [show jsonEscapeChar 12 = [92, 102] from by norm_num [jsonEscapeChar]]
      simp only [List.cons_append, List.nil_append]
      rw [parseJsonString.eq_def]
      simp [jsonUnescape?, ih]
    by_cases h7 : c = 13
    · subst h7
      rw [show jsonEscapeChar 13 = [92, 114] from by norm_num [jsonEscapeChar]]
      simp only [List.cons_append, List.nil_append]
      rw [parseJsonString.eq_def]
      simp [jsonUnescape?, ih]
    by_cases h8 : c < 32
    · -- low control character, encoded as a hex escape
      rw [show jsonEscapeChar c =
          [92, 117, 48, 48, hexDigitChar (c / 16), hexDigitChar (c % 16)] from by
        unfold jsonEscapeChar
        rw [if_neg h1, if_neg h2, if_neg h3, if_neg h4, if_neg h5, if_neg h6,
          if_neg h7, if_pos h8]]
      have hd3 : hexVal? (hexDigitChar (c / 16)) = some (c / 16) :=
        hexVal?_hexDigitChar (by omega)
      have hd4 : hexVal? (hexDigitChar (c % 16)) = some (c % 16) :=
        hexVal?_hexDigitChar (by omega)
      simp only [List.cons_append, List.nil_append]
      rw [parseJsonString.eq_def]
      simp only [show ¬ (92 : Nat) = 34 by omega, show (92 : Nat) = 92 from rfl,
        show (117 : Nat) = 117 from rfl, if_true, if_false, ite_true, ite_false,
        (by decide : hexVal? 48 = some 0), hd3, hd4]
      rw [ih]
      simp
      omega
    · -- plain character
      rw [show jsonEscapeChar c = [c] from by
        unfold jsonEscapeChar
        rw [if_neg h1, if_neg h2, if_neg h3, if_neg h4, if_neg h5, if_neg h6,
          if_neg h7, if_neg h8]]
      simp only [List.cons_append, List.nil_append]
      rw [parseJsonString.eq_def]
      simp [h1, h2, h8, ih]

theorem jsonParseChannel_createChannelInfo (ch : List Nat) :
    jsonParseChannel (createChannelInfo ch) = some ch := by
  unfold jsonParseChannel createChannelInfo
  rw [show jsonHead ++ (ch.map jsonEscapeChar).flatten ++ [34, 125] =
      jsonHead ++ ((ch.map jsonEscapeChar).flatten ++ (34 :: [125])) from by
    simp [List.append_assoc]]
  rw [dropLit_append]
  simp [parseJsonString_escape ch [125]]

theorem parseChannelInfo_roundtrip {ch bs : List Nat}
    (h : utf8Encode? (createChannelInfo ch) = some bs) :
    parseChannelInfo bs = some ch := by
  unfold parseChannelInfo
  rw [utf8Decode?_utf8Encode? _ _ h]
  simp [jsonParseChannel_createChannelInfo]

/-! Inversion of a successful injection: names every intermediate value
of the pipeline and the exact byte-level shape of the destination. -/

theorem injectChannelEx_ok {src ch dst : List Nat}
    (h : injectChannelEx src ch = .ok dst) :
    ∃ c cd block s m cb nb,
      getCommentLength src = some c ∧
      findCentralDirOffset src c = some cd ∧
      findApkSigningBlock src cd = .ok (block, s) ∧
      findIdValues block = .ok m ∧
      hasKey m apkSigV2Id = true ∧
      utf8Encode? (createChannelInfo ch) = some cb ∧
      createApkSigningBlock
        (upd (if hasKey m verityPaddingId then eraseKey m verityPaddingId else m)
          walleChannelId cb) = some nb ∧
      c + 6 ≤ (src.take s ++ nb ++ src.drop cd).length ∧
      s + nb.length < 2 ^ 32 ∧
      dst = writeBytes (src.take s ++ nb ++ src.drop cd)
        ((src.take s ++ nb ++ src.drop cd).length - c - 6)
        (leBytes 4 (s + nb.length)) := by
  unfold injectChannelEx at h
  cases hc : getCommentLength src with
  | none => simp [hc] at h
  | some c =>
  simp only [hc] at h
  cases hcd : findCentralDirOffset src c with
  | none => simp [hcd] at h
  | some cd =>
  simp only [hcd] at h
  cases hblk : findApkSigningBlock src cd with
  | error e => simp [hblk] at h
  | ok p =>
  obtain ⟨block, s⟩ := p
  simp only [hblk] at h
  cases hm : findIdValues block with
  | error e => simp [hm] at h
  | ok m =>
  simp only [hm] at h
  by_cases hv2 : hasKey m apkSigV2Id
  · rw [if_pos hv2] at h
    cases hcb : utf8Encode? (createChannelInfo ch) with
    | none => simp [hcb] at h
    | some cb =>
    simp only [hcb] at h
    cases hnb : createApkSigningBlock
        (upd (if hasKey m verityPaddingId then eraseKey m verityPaddingId else m)
          walleChannelId cb) with
    | none => simp [hnb] at h
    | some nb =>
    simp only [hnb] at h
    by_cases hlen : (src.take s ++ nb ++ src.drop cd).length < c + 6
    · rw [if_pos hlen] at h
      simp at h
    · rw [if_neg hlen] at h
      cases hpb : u32le? (s + nb.length) with
      | none => simp [hpb] at h
      | some pb =>
      simp only [hpb, Except.ok.injEq] at h
      obtain ⟨hpbB, hpbLt⟩ := u32le?_eq_some hpb
      exact ⟨c, cd, block, s, m, cb, nb, rfl, hcd, hblk, hm, hv2, rfl, hnb,
        by omega, hpbLt, by rw [← h, hpbB]⟩
  · rw [if_neg hv2] at h
    simp at h

/-- Inversion of a successful signing-block location. -/
theorem findApkSigningBlock_ok {f : List Nat} {cd : Nat} {block : List Nat}
    {off : Nat} (h : findApkSigningBlock f cd = .ok (block, off)) :
    apkSigBlockMinSize ≤ cd ∧ cd ≤ f.length ∧ off + block.length = cd ∧
    8 ≤ block.length ∧ block = extract f off block.length := by
  unfold findApkSigningBlock at h
  by_cases h32 : cd < apkSigBlockMinSize
  · rw [if_pos h32] at h
    simp at h
  rw [if_neg h32] at h
  unfold apkSigBlockMinSize at h32
  cases hlo : sliceU64? (extract f (cd - 24) 24) 8 with
  | none => simp [hlo] at h
  | some lo =>
  cases hhi : sliceU64? (extract f (cd - 24) 24) 16 with
  | none => simp [hlo, hhi] at h
  | some hi =>
  simp only [hlo, hhi] at h
  have hflen : cd ≤ f.length := by
    unfold sliceU64? at hhi
    split_ifs at hhi with hL
    rw [extract_length] at hL
    omega
  by_cases hmag : lo ≠ apkSigBlockMagicLo ∨ hi ≠ apkSigBlockMagicHi
  · rw [if_pos hmag] at h
    simp at h
  rw [if_neg hmag] at h
  cases hfs : sliceU64? (extract f (cd - 24) 24) 0 with
  | none => simp [hfs] at h
  | some fsize =>
  simp only [hfs] at h
  by_cases hneg : cd < fsize + 8
  · rw [if_pos hneg] at h
    simp at h
  rw [if_neg hneg] at h
  cases hhs : sliceU64? (extract f (cd - (fsize + 8)) (fsize + 8)) 0 with
  | none => simp [hhs] at h
  | some hsize =>
  simp only [hhs] at h
  by_cases hmm : hsize ≠ fsize
  · rw [if_pos hmm] at h
    simp at h
  rw [if_neg hmm] at h
  simp only [Except.ok.injEq, Prod.mk.injEq] at h
  obtain ⟨hb, hoff⟩ := h
  have hblen : block.length = fsize + 8 := by
    rw [← hb, extract_length]
    omega
  refine ⟨by unfold apkSigBlockMinSize; omega, hflen, by omega, by omega, ?_⟩
  rw [hblen, ← hoff]
  exact hb.symm

/-- Construction of a successful signing-block location from the field
reads it performs. -/
theorem findApkSigningBlock_build {f : List Nat} {cd fsize : Nat}
    (hge : apkSigBlockMinSize ≤ cd)
    (hlo : sliceU64? (extract f (cd - 24) 24) 8 = some apkSigBlockMagicLo)
    (hhi : sliceU64? (extract f (cd - 24) 24) 16 = some apkSigBlockMagicHi)
    (hfs : sliceU64? (extract f (cd - 24) 24) 0 = some fsize)
    (hpos : fsize + 8 ≤ cd)
    (hhs : sliceU64? (extract f (cd - (fsize + 8)) (fsize + 8)) 0 = some fsize) :
    findApkSigningBlock f cd =
      .ok (extract f (cd - (fsize + 8)) (fsize + 8), cd - (fsize + 8)) := by
  unfold findApkSigningBlock
  rw [if_neg (by omega)]
  simp only [hlo, hhi]
  rw [if_neg (by simp), hfs]
  simp only
  rw [if_neg (by omega)]
  simp only [hhs]
  rw [if_neg (by simp)]

/-! The claims. -/

/-- C5: `_get_comment_length` returns a comment length `c` exactly when
the 4 bytes at offset `file size - 22 - c` are the EOCD signature
0x06054b50, the u16 comment-length field of that record equals `c`,
`c` lies in the scanned range `0 .. min (file size - 22) 65535`, and no
smaller candidate passes both checks (a coincidental signature match
whose declared comment length differs is rejected); it fails when no
candidate satisfies both checks, in particular on files shorter than
22 bytes. -/
theorem getCommentLength_spec (f : List Nat) (c : Nat) :
    getCommentLength f = some c ↔
      (22 ≤ f.length ∧ c ≤ min (f.length - 22) 65535 ∧
       readU32? f (f.length - 22 - c) = some eocdSig ∧
       readU16? f (f.length - 22 - c + 20) = some c ∧
       ∀ k < c, ¬(readU32? f (f.length - 22 - k) = some eocdSig ∧
                  readU16? f (f.length - 22 - k + 20) = some k)) := by
  unfold getCommentLength
  by_cases hlen : f.length < 22
  · rw [if_pos hlen]
    simp only [false_iff, reduceCtorEq]
    rintro ⟨h1, -⟩
    omega
  · rw [if_neg hlen, find?_range_eq_some]
    constructor
    · rintro ⟨h1, h2, h3⟩
      rw [eocdCheck, Bool.and_eq_true, beq_iff_eq, beq_iff_eq] at h2
      refine ⟨by omega, by omega, h2.1, h2.2, ?_⟩
      rintro k hk ⟨hk1, hk2⟩
      have hfalse := h3 k hk
      rw [eocdCheck, hk1, hk2] at hfalse
      simp at hfalse
    · rintro ⟨h1, h2, h3, h4, h5⟩
      refine ⟨by omega, ?_, ?_⟩
      · rw [eocdCheck, Bool.and_eq_true, beq_iff_eq, beq_iff_eq]
        exact ⟨h3, h4⟩
      · intro k hk
        have hnk := h5 k hk
        rw [eocdCheck]
        by_cases hA : readU32? f (f.length - 22 - k) = some eocdSig
        · by_cases hB : readU16? f (f.length - 22 - k + 20) = some k
          · exact absurd ⟨hA, hB⟩ hnk
          · simp [hA, hB]
        · simp [hA]

/-- C6: the signing-block locator fails with BlockTooSmall when the
central-directory offset is below 32; otherwise it reads the 24 bytes
ending at `cd` as the footer and fails with a bad-magic error unless
both 64-bit magic words match; with good magic it takes the footer size
field `fsize`, computes container size `fsize + 8` and container start
`cd - (fsize + 8)`, failing when that start would be negative; it
fails with a size-mismatch error when the container's leading u64
differs from `fsize`; and on success it returns exactly the
`fsize + 8` container bytes starting at the container start, together
with that absolute offset. -/
theorem findApkSigningBlock_spec (f : List Nat) (cd : Nat) :
    (cd < apkSigBlockMinSize → findApkSigningBlock f cd = .error .blockTooSmall) ∧
    (∀ lo hi, apkSigBlockMinSize ≤ cd →
      sliceU64? (extract f (cd - 24) 24) 8 = some lo →
      sliceU64? (extract f (cd - 24) 24) 16 = some hi →
      (lo ≠ apkSigBlockMagicLo ∨ hi ≠ apkSigBlockMagicHi) →
      findApkSigningBlock f cd = .error .badMagic) ∧
    (∀ fsize, apkSigBlockMinSize ≤ cd →
      sliceU64? (extract f (cd - 24) 24) 8 = some apkSigBlockMagicLo →
      sliceU64? (extract f (cd - 24) 24) 16 = some apkSigBlockMagicHi →
      sliceU64? (extract f (cd - 24) 24) 0 = some fsize →
      (cd < fsize + 8 → findApkSigningBlock f cd = .error .offsetOutOfRange) ∧
      (fsize + 8 ≤ cd →
        ∀ hsize,
          sliceU64? (extract f (cd - (fsize + 8)) (fsize + 8)) 0 = some hsize →
          (hsize ≠ fsize → findApkSigningBlock f cd = .error .sizeMismatch) ∧
          (hsize = fsize → findApkSigningBlock f cd =
            .ok (extract f (cd - (fsize + 8)) (fsize + 8), cd - (fsize + 8))))) := by
  refine ⟨?_, ?_, ?_⟩
  · intro h
    unfold findApkSigningBlock
    rw [if_pos h]
  · intro lo hi hge hlo hhi hbad
    unfold findApkSigningBlock
    rw [if_neg (by omega)]
    simp only [hlo, hhi]
    rw [if_pos hbad]
  · intro fsize hge hlo hhi hfs
    constructor
    · intro hneg
      unfold findApkSigningBlock
      rw [if_neg (by omega)]
      simp only [hlo, hhi]
      rw [if_neg (by simp), hfs]
      simp only
      rw [if_pos hneg]
    · intro hpos hsize hhs
      constructor
      · intro hne
        unfold findApkSigningBlock
        rw [if_neg (by omega)]
        simp only [hlo, hhi]
        rw [if_neg (by simp), hfs]
        simp only
        rw [if_neg (by omega)]
        simp only [hhs]
        rw [if_pos hne]
      · intro heq
        unfold findApkSigningBlock
        rw [if_neg (by omega)]
        simp only [hlo, hhi]
        rw [if_neg (by simp), hfs]
        simp only
        rw [if_neg (by omega)]
        simp only [hhs]
        rw [if_neg (by simp [heq])]

/-- Witness for C6: on the concrete 68-byte archive the locator returns
the 46-byte container at offset 0. -/
theorem findApkSigningBlock_spec_witness :
    findApkSigningBlock wSrc 46 = .ok (wBlock, 0) := by
  have h := ((findApkSigningBlock_spec wSrc 46).2.2 38 (by decide)
    (by decide) (by decide) (by decide)).2 (by norm_num) 38 (by decide)
  have h2 := h.2 rfl
  rw [h2]
  simp only [Except.ok.injEq]
  decide

/-- C2 (amended): the pair decoder has no bounds check: decoding never
fails with a container-corrupt error, for any container whatever; an
entry whose declared length runs past `container length - 24` is
consumed with its value clamped to the available bytes and the cursor
moved past the region, ending the loop.  The concrete container
`c2Block` (declared entry length 1000 in a 46-byte container) decodes
successfully to that clamped entry. -/
theorem findIdValues_total :
    (∀ block : List Nat, ∃ m, findIdValues block = .ok m) ∧
    findIdValues c2Block = .ok [(5, [1, 2] ++ List.replicate 24 0)] := by
  constructor
  · intro block
    obtain ⟨m, hm, -⟩ := decodePairsAux_ok block block.length 8 [] (by omega) (by simp)
    exact ⟨m, hm⟩
  · decide

/-- Counterexample for C2 as stated: in `c2Block` the first entry
declares length 1000, making the cursor run far past
`container length - 24 = 22`, yet `_find_id_values` does not fail — it
returns the entry with a silently truncated value. -/
theorem findIdValues_overrun_counterexample :
    sliceU64? c2Block 8 = some 1000 ∧ c2Block.length - 24 < 8 + 8 + 1000 ∧
    findIdValues c2Block ≠ .error () ∧
    findIdValues c2Block = .ok [(5, [1, 2] ++ List.replicate 24 0)] := by
  decide

/-- C4: when the decoded pair map of the located signing container has
no entry under the Reserved Signature Entry id 0x7109871a,
`inject_channel` fails with the signature-missing error and the
destination still holds exactly the initial byte-identical copy of the
source — the container is not rewritten. -/
theorem inject_gate_enforcement (src ch : List Nat) (c cd : Nat)
    (block : List Nat) (s : Nat) (m : List (Nat × List Nat))
    (hc : getCommentLength src = some c)
    (hcd : findCentralDirOffset src c = some cd)
    (hblk : findApkSigningBlock src cd = .ok (block, s))
    (hm : findIdValues block = .ok m)
    (hv2 : hasKey m apkSigV2Id = false) :
    injectChannelEx src ch = .error (.sigMissing, src) ∧
    injectChannel src ch = (false, src) := by
  have hex : injectChannelEx src ch = .error (.sigMissing, src) := by
    unfold injectChannelEx
    simp only [hc, hcd, hblk, hm]
    rw [if_neg (by simp [hv2])]
  exact ⟨hex, by unfold injectChannel; rw [hex]⟩

/-- Witness for C4 on the concrete archive without the Reserved
Signature Entry. -/
theorem inject_gate_enforcement_witness :
    injectChannelEx wNoV2Src wCh = .error (.sigMissing, wNoV2Src) ∧
    injectChannel wNoV2Src wCh = (false, wNoV2Src) :=
  inject_gate_enforcement wNoV2Src wCh 0 46 wNoV2Block 0 [(0x99, [1, 2])]
    (by decide) (by decide) (by decide) (by decide) (by decide)

/-- C8: on a well-formed archive whose decoded pair map has no entry
under the channel id 0x71777777, `get_channel` takes the defined
absent path: the pipeline body returns `ok None` (not an error), and
the public operation returns `None`. -/
theorem get_absent_not_error (f : List Nat) (c cd : Nat)
    (block : List Nat) (s : Nat) (m : List (Nat × List Nat))
    (hc : getCommentLength f = some c)
    (hcd : findCentralDirOffset f c = some cd)
    (hblk : findApkSigningBlock f cd = .ok (block, s))
    (hm : findIdValues block = .ok m)
    (habs : lookupA m walleChannelId = none) :
    getChannelEx f = .ok none ∧ getChannel f = none := by
  have hex : getChannelEx f = .ok none := by
    unfold getChannelEx
    simp only [hc, hcd, hblk, hm, habs]
  exact ⟨hex, by unfold getChannel; rw [hex]⟩

/-- Witness for C8 on the concrete never-injected archive. -/
theorem get_absent_not_error_witness :
    getChannelEx wSrc = .ok none ∧ getChannel wSrc = none :=
  get_absent_not_error wSrc 0 46 wBlock 0 wM
    (by decide) (by decide) (by decide) (by decide) (by decide)

/-- C9: whenever the injection pipeline fails anywhere before the
step-10 rewrite — EOCD location, central-directory offset read,
signing-block location, pair decode, the Reserved Signature Entry
check, payload encoding or container packing — the destination state
carried by the error is exactly the initial byte-identical copy of the
source; only the two post-rewrite patch errors can leave anything
else. -/
theorem inject_early_failure_atomic (src ch : List Nat) (e : WErr)
    (d : List Nat) (h : injectChannelEx src ch = .error (e, d))
    (h1 : e ≠ .patchSeekError) (h2 : e ≠ .patchPackError) : d = src := by
  unfold injectChannelEx at h
  cases hc : getCommentLength src with
  | none =>
    simp only [hc, Except.error.injEq, Prod.mk.injEq] at h
    exact h.2.symm
  | some c =>
  simp only [hc] at h
  cases hcd : findCentralDirOffset src c with
  | none =>
    simp only [hcd, Except.error.injEq, Prod.mk.injEq] at h
    exact h.2.symm
  | some cd =>
  simp only [hcd] at h
  cases hblk : findApkSigningBlock src cd with
  | error e2 =>
    simp only [hblk, Except.error.injEq, Prod.mk.injEq] at h
    exact h.2.symm
  | ok p =>
  obtain ⟨block, s⟩ := p
  simp only [hblk] at h
  cases hm : findIdValues block with
  | error e2 =>
    simp only [hm, Except.error.injEq, Prod.mk.injEq] at h
    exact h.2.symm
  | ok m =>
  simp only [hm] at h
  by_cases hv2 : hasKey m apkSigV2Id
  · rw [if_pos hv2] at h
    cases hcb : utf8Encode? (createChannelInfo ch) with
    | none =>
      simp only [hcb, Except.error.injEq, Prod.mk.injEq] at h
      exact h.2.symm
    | some cb =>
    simp only [hcb] at h
    cases hnb : createApkSigningBlock
        (upd (if hasKey m verityPaddingId then eraseKey m verityPaddingId else m)
          walleChannelId cb) with
    | none =>
      simp only [hnb, Except.error.injEq, Prod.mk.injEq] at h
      exact h.2.symm
    | some nb =>
    simp only [hnb] at h
    by_cases hlen : (src.take s ++ nb ++ src.drop cd).length < c + 6
    · rw [if_pos hlen] at h
      simp only [Except.error.injEq, Prod.mk.injEq] at h
      exact absurd h.1.symm h1
    · rw [if_neg hlen] at h
      cases hpb : u32le? (s + nb.length) with
      | none =>
        simp only [hpb, Except.error.injEq, Prod.mk.injEq] at h
        exact absurd h.1.symm h2
      | some pb =>
      simp [hpb] at h
  · rw [if_neg hv2] at h
    simp only [Except.error.injEq, Prod.mk.injEq] at h
    exact h.2.symm

/-- Witness for C9: the signature-missing failure on the concrete
archive leaves the destination equal to the source. -/
theorem inject_early_failure_atomic_witness : wNoV2Src = wNoV2Src :=
  inject_early_failure_atomic wNoV2Src wCh .sigMissing wNoV2Src
    (by decide) (by decide) (by decide)

/-- C10: neither public operation propagates an internal error:
whenever the `inject_channel` pipeline fails, the operation returns
`False` together with the error-time destination state, and whenever
the `get_channel` pipeline fails, the operation returns `None` — the
same value it returns for a well-formed archive that simply has no
channel entry, so a `None` result does not distinguish a malformed
archive (here the empty file) from an un-injected one (here `wSrc`). -/
theorem public_ops_swallow_errors :
    (∀ src ch e d, injectChannelEx src ch = .error (e, d) →
      injectChannel src ch = (false, d)) ∧
    (∀ f e, getChannelEx f = .error e → getChannel f = none) ∧
    getChannelEx ([] : List Nat) = .error .eocdNotFound ∧
    getChannelEx wSrc = .ok none ∧
    getChannel ([] : List Nat) = getChannel wSrc := by
  refine ⟨?_, ?_, ?_, ?_, ?_⟩
  · intro src ch e d h
    unfold injectChannel
    rw [h]
  · intro f e h
    unfold getChannel
    rw [h]
  · decide
  · decide
  · decide

/-- Witness for C10: the swallowing behavior at the concrete failing
inputs. -/
theorem public_ops_swallow_errors_witness :
    injectChannel ([] : List Nat) wCh = (false, []) ∧
    getChannel ([] : List Nat) = none := by
  constructor
  · exact public_ops_swallow_errors.1 [] wCh .eocdNotFound [] (by decide)
  · exact public_ops_swallow_errors.2.1 [] .eocdNotFound (by decide)

/-- A successful `inject_channel` comes from a successful pipeline. -/
theorem injectChannel_true {src ch dst : List Nat}
    (h : injectChannel src ch = (true, dst)) :
    injectChannelEx src ch = .ok dst := by
  unfold injectChannel at h
  cases hE : injectChannelEx src ch with
  | ok d =>
    rw [hE] at h
    simp only [Prod.mk.injEq] at h
    rw [h.2]
  | error p =>
    rw [hE] at h
    simp at h

/-- C3: for every successful injection the destination size differs
from the source size by exactly the container growth — destination
size plus old container size equals source size plus new container
size — and the 4 bytes at destination offset
(destination size - comment length - 6) hold the little-endian
encoding of (old container start + new container length). -/
theorem inject_size_accounting (src ch dst : List Nat) (c cd : Nat)
    (block : List Nat) (s : Nat) (m : List (Nat × List Nat)) (cb nb : List Nat)
    (hinj : injectChannel src ch = (true, dst))
    (hc : getCommentLength src = some c)
    (hcd : findCentralDirOffset src c = some cd)
    (hblk : findApkSigningBlock src cd = .ok (block, s))
    (hm : findIdValues block = .ok m)
    (hv2 : hasKey m apkSigV2Id = true)
    (hcb : utf8Encode? (createChannelInfo ch) = some cb)
    (hnb : createApkSigningBlock
      (upd (if hasKey m verityPaddingId then eraseKey m verityPaddingId else m)
        walleChannelId cb) = some nb) :
    dst.length + block.length = src.length + nb.length ∧
    extract dst (dst.length - c - 6) 4 = leBytes 4 (s + nb.length) := by
  have hex := injectChannel_true hinj
  unfold injectChannelEx at hex
  simp only [hc, hcd, hblk, hm] at hex
  rw [if_pos hv2] at hex
  simp only [hcb, hnb] at hex
  by_cases hlen : (src.take s ++ nb ++ src.drop cd).length < c + 6
  · rw [if_pos hlen] at hex
    simp at hex
  rw [if_neg hlen] at hex
  cases hpb : u32le? (s + nb.length) with
  | none => simp [hpb] at hex
  | some pb =>
  simp only [hpb, Except.ok.injEq] at hex
  obtain ⟨hpbB, hpbLt⟩ := u32le?_eq_some hpb
  obtain ⟨-, hcdlen, hsum, -, -⟩ := findApkSigningBlock_ok hblk
  have hlb4 : (leBytes 4 (s + nb.length)).length = 4 := leBytes_length 4 _
  have hp4 : ((src.take s ++ nb ++ src.drop cd).length - c - 6) +
      (leBytes 4 (s + nb.length)).length ≤
      (src.take s ++ nb ++ src.drop cd).length := by
    rw [hlb4]
    omega
  have hdst : dst = writeBytes (src.take s ++ nb ++ src.drop cd)
      ((src.take s ++ nb ++ src.drop cd).length - c - 6)
      (leBytes 4 (s + nb.length)) := by
    rw [← hex, hpbB]
  have hdstlen : dst.length = (src.take s ++ nb ++ src.drop cd).length := by
    rw [hdst]
    exact length_writeBytes hp4
  have hd0len : (src.take s ++ nb ++ src.drop cd).length =
      s + nb.length + (src.length - cd) := by
    simp
    omega
  constructor
  · omega
  · rw [hdstlen, hdst]
    have hself := extract_writeBytes_self hp4
    rw [hlb4] at hself
    exact hself

/-- Witness for C3 on the concrete 68-byte archive. -/
theorem inject_size_accounting_witness :
    wDst.length + wBlock.length = wSrc.length + wNb.length ∧
    extract wDst (wDst.length - 0 - 6) 4 = leBytes 4 (0 + wNb.length) :=
  inject_size_accounting wSrc wCh wDst 0 46 wBlock 0 wM wCb wNb
    (by decide) (by decide) (by decide) (by decide) (by decide) (by decide)
    (by decide) (by decide)

/-- C7: for every successful injection the rewritten container — the
`nb.length` bytes of the destination starting at the old container
start `s` — decodes to a pair map whose entry under the Reserved
Signature Entry id 0x7109871a is byte-for-byte the entry of the
original container's pair map, whatever other entries were inserted
or removed. -/
theorem inject_signature_passthrough (src ch dst : List Nat) (c cd : Nat)
    (block : List Nat) (s : Nat) (m : List (Nat × List Nat)) (cb nb : List Nat)
    (hinj : injectChannel src ch = (true, dst))
    (hc : getCommentLength src = some c)
    (hcd : findCentralDirOffset src c = some cd)
    (hblk : findApkSigningBlock src cd = .ok (block, s))
    (hm : findIdValues block = .ok m)
    (hv2 : hasKey m apkSigV2Id = true)
    (hcb : utf8Encode? (createChannelInfo ch) = some cb)
    (hnb : createApkSigningBlock
      (upd (if hasKey m verityPaddingId then eraseKey m verityPaddingId else m)
        walleChannelId cb) = some nb)
    (hwf : cd + 22 + c ≤ src.length) :
    extract dst s nb.length = nb ∧
    ∃ m2, findIdValues nb = .ok m2 ∧
      lookupA m2 apkSigV2Id = lookupA m apkSigV2Id := by
  have hex := injectChannel_true hinj
  unfold injectChannelEx at hex
  simp only [hc, hcd, hblk, hm] at hex
  rw [if_pos hv2] at hex
  simp only [hcb, hnb] at hex
  by_cases hlen : (src.take s ++ nb ++ src.drop cd).length < c + 6
  · rw [if_pos hlen] at hex
    simp at hex
  rw [if_neg hlen] at hex
  cases hpb : u32le? (s + nb.length) with
  | none => simp [hpb] at hex
  | some pb =>
  simp only [hpb, Except.ok.injEq] at hex
  obtain ⟨hpbB, hpbLt⟩ := u32le?_eq_some hpb
  have hdst : dst = writeBytes (src.take s ++ nb ++ src.drop cd)
      ((src.take s ++ nb ++ src.drop cd).length - c - 6)
      (leBytes 4 (s + nb.length)) := by
    rw [← hex, hpbB]
  obtain ⟨-, hcdlen, hsum, -, -⟩ := findApkSigningBlock_ok hblk
  have hnd : (m.map Prod.fst).Nodup := by
    obtain ⟨m3, hm3, hnd3⟩ := decodePairsAux_ok block block.length 8 []
      (by omega) (by simp)
    unfold findIdValues at hm
    rw [hm] at hm3
    obtain rfl : m = m3 := Except.ok.inj hm3
    exact hnd3
  have hndm1 : ((if hasKey m verityPaddingId then eraseKey m verityPaddingId
      else m).map Prod.fst).Nodup := by
    by_cases hpad : hasKey m verityPaddingId
    · rw [if_pos hpad]
      exact nodup_eraseKey _ hnd
    · rw [if_neg hpad]
      exact hnd
  refine ⟨?_, upd (if hasKey m verityPaddingId then eraseKey m verityPaddingId
      else m) walleChannelId cb, findIdValues_createApkSigningBlock
      (nodup_upd _ hndm1) hnb, ?_⟩
  · have hlb4 : (leBytes 4 (s + nb.length)).length = 4 := leBytes_length 4 _
    have hd0len : (src.take s ++ nb ++ src.drop cd).length =
        s + nb.length + (src.length - cd) := by
      simp
      omega
    rw [hdst]
    have hbefore : extract (writeBytes (src.take s ++ nb ++ src.drop cd)
        ((src.take s ++ nb ++ src.drop cd).length - c - 6)
        (leBytes 4 (s + nb.length))) s nb.length =
        extract (src.take s ++ nb ++ src.drop cd) s nb.length := by
      apply extract_writeBytes_before
      · rw [hd0len]
        omega
      · omega
    rw [hbefore]
    rw [show src.take s ++ nb ++ src.drop cd =
      src.take s ++ (nb ++ src.drop cd) from by simp [List.append_assoc]]
    exact extract_chunk nb (src.drop cd) (by simp; omega) rfl
  · rw [lookupA_upd_other _ _ _ (by decide)]
    by_cases hpad : hasKey m verityPaddingId
    · rw [if_pos hpad]
      exact lookupA_eraseKey_other _ _ (by decide)
    · rw [if_neg hpad]

/-- Witness for C7 on the concrete 68-byte archive. -/
theorem inject_signature_passthrough_witness :
    extract wDst 0 wNb.length = wNb ∧
    ∃ m2, findIdValues wNb = .ok m2 ∧
      lookupA m2 apkSigV2Id = lookupA wM apkSigV2Id :=
  inject_signature_passthrough wSrc wCh wDst 0 46 wBlock 0 wM wCb wNb
    (by decide) (by decide) (by decide) (by decide) (by decide) (by decide)
    (by decide) (by decide) (by decide)

/-- C1 (amended): round trip of injection.  For an archive whose
signing container carries the Reserved Signature Entry, whose central
directory and EOCD lie inside the file (`cd + 22 + c ≤ src.length`),
and for which the comment-length scan of the rewritten destination
still yields the source's comment length (the patched offset bytes can
otherwise forge an earlier self-consistent EOCD candidate — see the
counterexample), a successful `inject_channel` followed by
`get_channel` returns exactly the injected channel string. -/
theorem inject_get_roundtrip (src ch dst : List Nat) (c cd : Nat)
    (hinj : injectChannel src ch = (true, dst))
    (hc : getCommentLength src = some c)
    (hcd : findCentralDirOffset src c = some cd)
    (hwf : cd + 22 + c ≤ src.length)
    (hscan : getCommentLength dst = some c) :
    getChannel dst = some ch := by
  have hex := injectChannel_true hinj
  obtain ⟨c2, cd2, block, s, m, cb, nb, hc2, hcd2, hblk, hm, hv2, hcb, hnb,
    hlend0, hlt, hdst⟩ := injectChannelEx_ok hex
  rw [hc] at hc2
  obtain rfl := Option.some.inj hc2
  rw [hcd] at hcd2
  obtain rfl := Option.some.inj hcd2
  obtain ⟨h32, hcdlen, hsum, hblk8, -⟩ := findApkSigningBlock_ok hblk
  obtain ⟨pb, hpk, hlt64, hnbEq, hnbLen⟩ := createApkSigningBlock_eq hnb
  have hlb4 : (leBytes 4 (s + nb.length)).length = 4 := leBytes_length 4 _
  have hd0len : (src.take s ++ nb ++ src.drop cd).length =
      s + nb.length + (src.length - cd) := by
    simp
    omega
  have hp4 : ((src.take s ++ nb ++ src.drop cd).length - c - 6) +
      (leBytes 4 (s + nb.length)).length ≤
      (src.take s ++ nb ++ src.drop cd).length := by
    rw [hlb4]
    omega
  have hdstlen : dst.length = (src.take s ++ nb ++ src.drop cd).length := by
    rw [hdst]
    exact length_writeBytes hp4
  have hpge : s + nb.length + 16 ≤
      (src.take s ++ nb ++ src.drop cd).length - c - 6 := by
    rw [hd0len]
    omega
  -- the rewritten container survives in the destination
  have hExtractNb : extract dst s nb.length = nb := by
    rw [hdst]
    have hbefore : extract (writeBytes (src.take s ++ nb ++ src.drop cd)
        ((src.take s ++ nb ++ src.drop cd).length - c - 6)
        (leBytes 4 (s + nb.length))) s nb.length =
        extract (src.take s ++ nb ++ src.drop cd) s nb.length := by
      apply extract_writeBytes_before
      · omega
      · omega
    rw [hbefore]
    rw [show src.take s ++ nb ++ src.drop cd =
      src.take s ++ (nb ++ src.drop cd) from by simp [List.append_assoc]]
    exact extract_chunk nb (src.drop cd) (by simp; omega) rfl
  -- step 2 of the reader: the patched central-directory offset
  have hA : findCentralDirOffset dst c = some (s + nb.length) := by
    unfold findCentralDirOffset
    rw [if_neg (by omega)]
    unfold readU32?
    rw [if_pos (by omega)]
    have hpp : dst.length - c - 6 =
        (src.take s ++ nb ++ src.drop cd).length - c - 6 := by omega
    rw [hpp, hdst]
    have hself := extract_writeBytes_self hp4
    rw [hlb4] at hself
    rw [hself, leNum_leBytes 4 _ (by norm_num; omega)]
  -- step 3 of the reader: locating the rewritten container
  have hfoot : extract dst (s + nb.length - 24) 24 =
      leBytes 8 (pb.length + 24) ++
        (leBytes 8 apkSigBlockMagicLo ++ leBytes 8 apkSigBlockMagicHi) := by
    rw [hdst]
    have hbefore : extract (writeBytes (src.take s ++ nb ++ src.drop cd)
        ((src.take s ++ nb ++ src.drop cd).length - c - 6)
        (leBytes 4 (s + nb.length))) (s + nb.length - 24) 24 =
        extract (src.take s ++ nb ++ src.drop cd) (s + nb.length - 24) 24 := by
      apply extract_writeBytes_before
      · omega
      · omega
    rw [hbefore]
    have hD : src.take s ++ nb ++ src.drop cd =
        ((src.take s ++ leBytes 8 (pb.length + 24)) ++ pb) ++
          ((leBytes 8 (pb.length + 24) ++
            (leBytes 8 apkSigBlockMagicLo ++ leBytes 8 apkSigBlockMagicHi)) ++
            src.drop cd) := by
      rw [hnbEq]
      simp [List.append_assoc]
    rw [hD]
    exact extract_chunk _ _
      (by simp [leBytes_length]; omega) (by simp [leBytes_length])
  have hfootlen : (leBytes 8 (pb.length + 24) ++
      (leBytes 8 apkSigBlockMagicLo ++ leBytes 8 apkSigBlockMagicHi)).length = 24 := by
    simp [leBytes_length]
  have hb2 : sliceU64? (extract dst (s + nb.length - 24) 24) 8 =
      some apkSigBlockMagicLo := by
    rw [hfoot]
    unfold sliceU64?
    rw [if_pos (by rw [hfootlen]; omega)]
    rw [show leBytes 8 (pb.length + 24) ++
        (leBytes 8 apkSigBlockMagicLo ++ leBytes 8 apkSigBlockMagicHi) =
        leBytes 8 (pb.length + 24) ++
          (leBytes 8 apkSigBlockMagicLo ++ leBytes 8 apkSigBlockMagicHi) from rfl]
    rw [extract_chunk (leBytes 8 apkSigBlockMagicLo)
      (leBytes 8 apkSigBlockMagicHi) (by simp [leBytes_length])
      (by simp [leBytes_length])]
    rw [leNum_leBytes 8 _ (by norm_num [apkSigBlockMagicLo])]
  have hb3 : sliceU64? (extract dst (s + nb.length - 24) 24) 16 =
      some apkSigBlockMagicHi := by
    rw [hfoot]
    unfold sliceU64?
    rw [if_pos (by rw [hfootlen]; try omega)]
    have hD2 : leBytes 8 (pb.length + 24) ++
        (leBytes 8 apkSigBlockMagicLo ++ leBytes 8 apkSigBlockMagicHi) =
        (leBytes 8 (pb.length + 24) ++ leBytes 8 apkSigBlockMagicLo) ++
          (leBytes 8 apkSigBlockMagicHi ++ []) := by
      simp [List.append_assoc]
    rw [hD2, extract_chunk (leBytes 8 apkSigBlockMagicHi) []
      (by simp [leBytes_length]) (by simp [leBytes_length])]
    rw [leNum_leBytes 8 _ (by norm_num [apkSigBlockMagicHi])]
  have hb4 : sliceU64? (extract dst (s + nb.length - 24) 24) 0 =
      some (pb.length + 24) := by
    rw [hfoot]
    unfold sliceU64?
    rw [if_pos (by rw [hfootlen]; omega)]
    have h8 : extract (leBytes 8 (pb.length + 24) ++
        (leBytes 8 apkSigBlockMagicLo ++ leBytes 8 apkSigBlockMagicHi)) 0 8 =
        leBytes 8 (pb.length + 24) := by
      have hpre := extract_prefix (leBytes 8 (pb.length + 24))
        (leBytes 8 apkSigBlockMagicLo ++ leBytes 8 apkSigBlockMagicHi)
      rwa [leBytes_length] at hpre
    rw [h8, leNum_leBytes 8 _ hlt64]
  have hb6pre : extract dst (s + nb.length - (pb.length + 24 + 8))
      (pb.length + 24 + 8) = nb := by
    rw [show s + nb.length - (pb.length + 24 + 8) = s from by omega,
      show pb.length + 24 + 8 = nb.length from by omega]
    exact hExtractNb
  have hnb0 : sliceU64? nb 0 = some (pb.length + 24) := by
    unfold sliceU64?
    rw [if_pos (by omega)]
    rw [hnbEq]
    have h8 : extract (leBytes 8 (pb.length + 24) ++
        (pb ++ (leBytes 8 (pb.length + 24) ++
          (leBytes 8 apkSigBlockMagicLo ++ leBytes 8 apkSigBlockMagicHi)))) 0 8 =
        leBytes 8 (pb.length + 24) := by
      have hpre := extract_prefix (leBytes 8 (pb.length + 24))
        (pb ++ (leBytes 8 (pb.length + 24) ++
          (leBytes 8 apkSigBlockMagicLo ++ leBytes 8 apkSigBlockMagicHi)))
      rwa [leBytes_length] at hpre
    rw [h8, leNum_leBytes 8 _ hlt64]
  have hb6 : sliceU64? (extract dst (s + nb.length - (pb.length + 24 + 8))
      (pb.length + 24 + 8)) 0 = some (pb.length + 24) := by
    rw [hb6pre]
    exact hnb0
  have hB := @findApkSigningBlock_build dst (s + nb.length) (pb.length + 24)
    (by unfold apkSigBlockMinSize; omega) hb2 hb3 hb4 (by omega) hb6
  rw [hb6pre] at hB
  rw [show s + nb.length - (pb.length + 24 + 8) = s from by omega] at hB
  -- step 4 of the reader: decoding the rewritten container
  have hnd : (m.map Prod.fst).Nodup := by
    obtain ⟨m3, hm3, hnd3⟩ := decodePairsAux_ok block block.length 8 []
      (by omega) (by simp)
    unfold findIdValues at hm
    rw [hm] at hm3
    obtain rfl : m = m3 := Except.ok.inj hm3
    exact hnd3
  have hndm1 : ((if hasKey m verityPaddingId then eraseKey m verityPaddingId
      else m).map Prod.fst).Nodup := by
    by_cases hpad : hasKey m verityPaddingId
    · rw [if_pos hpad]
      exact nodup_eraseKey _ hnd
    · rw [if_neg hpad]
      exact hnd
  have hfind := findIdValues_createApkSigningBlock (nodup_upd cb hndm1) hnb
  have hlook : lookupA (upd (if hasKey m verityPaddingId then
      eraseKey m verityPaddingId else m) walleChannelId cb) walleChannelId =
      some cb := lookupA_upd_self _ _ _
  have hparse : parseChannelInfo cb = some ch := parseChannelInfo_roundtrip hcb
  unfold getChannel getChannelEx
  simp only [hscan, hA, hB, hfind, hlook, hparse]

set_option maxRecDepth 40000

/-- Counterexample to C1 as literally stated: `cSrc` is an archive whose
signing container does carry the Reserved Signature Entry (v2, id
0x7109871a), yet `inject_channel` reports success and `get_channel` on
the produced destination returns `none` rather than the injected
channel: the patched central-directory-offset bytes forge an earlier
self-consistent EOCD candidate inside the comment. -/
theorem inject_get_roundtrip_counterexample :
    getCommentLength cSrc = some 13 ∧
    findCentralDirOffset cSrc 13 = some 234 ∧
    findApkSigningBlock cSrc 234 = .ok (wBlock, 188) ∧
    findIdValues wBlock = .ok [(apkSigV2Id, wV2Value)] ∧
    hasKey [(apkSigV2Id, wV2Value)] apkSigV2Id = true ∧
    (injectChannel cSrc wCh).1 = true ∧
    getChannel (injectChannel cSrc wCh).2 = none := by
  refine ⟨by decide, by decide, by decide, by decide, by decide, by decide, ?_⟩
  decide

theorem inject_get_roundtrip_witness :
    injectChannel wSrc wCh = (true, wDst) ∧
    getCommentLength wSrc = some 0 ∧
    findCentralDirOffset wSrc 0 = some 46 ∧
    46 + 22 + 0 ≤ wSrc.length ∧
    getCommentLength wDst = some 0 ∧
    getChannel wDst = some wCh :=
  ⟨by decide, by decide, by decide, by decide, by decide,
    inject_get_roundtrip wSrc wCh wDst 0 46 (by decide) (by decide) (by decide)
      (by decide) (by decide)⟩

end Walle
